import Mathlib

/-!
Verification development for the Create_QA repository.

The crawl scripts (`Crawl_URL.py`, `Crawl_URL_with_response.py`,
`Crawl_URL_selenium.py`) and the QA accumulation scripts
(`WebSearch.py`, `Create_QA_from_jsonl.py`,
`Create_QA_from_jsonl_alt_fixed.py`) are shallowly embedded below.
Network fetches and LLM calls are external collaborators; they are
modelled as oracles (functions supplied as parameters).  The crawl
loops are given explicit fuel; the Python `while` loops terminate in
practice because the web is finite, and every theorem either holds for
all fuel values or takes termination as a hypothesis, mirroring the
claims ("run to a terminal state").
-/

namespace CreateQA

/-- A parsed URL, the result of Python's `urlparse`: scheme, netloc
(host) and the remainder of the URL.  The scripts compare URLs for
string equality; distinct `Url` values model distinct URL strings. -/
structure Url where
  scheme : String
  netloc : String
  rest : String
deriving DecidableEq, Repr

/-- Python's `str.lower()` applied to a `Content-Type` header,
modelled over the string's character list (the headers involved are
ASCII). -/
def asciiLower (s : String) : String := String.mk (s.data.map Char.toLower)

/-- Character-list prefix test. -/
def charsPrefix : List Char → List Char → Bool
  | [], _ => true
  | _ :: _, [] => false
  | a :: as, b :: bs => a == b && charsPrefix as bs

/-- Python's `str.startswith(p)`: does `s` start with `p`? -/
def strStartsWith (s p : String) : Bool := charsPrefix p.data s.data

/-- What a successful HTTP fetch yields in `Crawl_URL.py`: the
`Content-Type` header and the list of hyperlinks of the page, already
resolved to absolute URLs (`urljoin(url, a_tag["href"])` followed by
`urlparse`).  `none` at the fetch oracle models a transport error
(`requests.exceptions.RequestException` or any other exception of the
request block). -/
structure Page where
  contentType : String
  links : List Url
deriving DecidableEq, Repr

/-- Result record of `Crawl_URL.py`:
`{"domain": domain, "url": url, "content_type": content_type}`. -/
structure PageRecord where
  domain : String
  url : Url
  content_type : String
deriving DecidableEq, Repr

/-- In-memory crawl state of `Crawl_URL.py`'s `crawl_domain`: the FIFO
`queue`, the `seen` set (a list used only through membership), the
`results` list, plus an instrumentation counter of how many network
fetches (`requests.get` calls) the loop performed. -/
structure CrawlState where
  queue : List Url
  seen : List Url
  results : List PageRecord
  fetches : Nat
deriving DecidableEq, Repr

/-- The checkpoint object `crawl_domain` serializes in its `finally`
block: `{"queue": queue, "seen": list(seen), "results": results}`,
after first adding every result URL to `seen`
(`for res_item in results: seen.add(res_item["url"])`). -/
structure Checkpoint where
  queue : List Url
  seen : List Url
  results : List PageRecord
deriving DecidableEq, Repr

/-- The link-enqueueing inner loop shared by all three crawl scripts:
each resolved link is appended to the queue only when its host equals
the session's `domain`, its scheme is `http` or `https`, and it is in
neither `seen` nor the current queue. -/
def enqueueLinks (domain : String) (seen : List Url) :
    List Url → List Url → List Url
  | queue, [] => queue
  | queue, l :: rest =>
    if l.netloc = domain ∧ (l.scheme = "http" ∨ l.scheme = "https") ∧
        l ∉ seen ∧ l ∉ queue then
      enqueueLinks domain seen (queue ++ [l]) rest
    else
      enqueueLinks domain seen queue rest

/-- One iteration of `Crawl_URL.py`'s `while` loop.  `none` means the
loop guard `queue and len(results) < max_urls` failed and the loop
exits.  Otherwise: pop the queue head, skip it if already seen,
else mark it seen and fetch it; on success append the record unless a
structurally identical record is already present, and enqueue the
page's links when the content type starts with `text/html`. -/
def crawlStep (fetch : Url → Option Page) (domain : String)
    (maxUrls : Nat) : CrawlState → Option CrawlState
  | ⟨[], _, _, _⟩ => none
  | ⟨url :: rest, seen, results, fetches⟩ =>
    if maxUrls ≤ results.length then none
    else if url ∈ seen then some ⟨rest, seen, results, fetches⟩
    else
      match fetch url with
      | none => some ⟨rest, url :: seen, results, fetches + 1⟩
      | some page =>
        let ct := asciiLower page.contentType
        let record : PageRecord := ⟨domain, url, ct⟩
        some ⟨(if strStartsWith ct "text/html" then
                 enqueueLinks domain (url :: seen) rest page.links
               else rest),
              url :: seen,
              (if record ∈ results then results else results ++ [record]),
              fetches + 1⟩

/-- The fueled crawl loop of `Crawl_URL.py`. -/
def crawlLoop (fetch : Url → Option Page) (domain : String)
    (maxUrls : Nat) : Nat → CrawlState → CrawlState
  | 0, s => s
  | fuel + 1, s =>
    match crawlStep fetch domain maxUrls s with
    | none => s
    | some s' => crawlLoop fetch domain maxUrls fuel s'

/-- The sequence of loop-boundary states visited by `crawl_domain`,
starting state included. -/
def crawlTrace (fetch : Url → Option Page) (domain : String)
    (maxUrls : Nat) : Nat → CrawlState → List CrawlState
  | 0, s => [s]
  | fuel + 1, s =>
    match crawlStep fetch domain maxUrls s with
    | none => [s]
    | some s' => s :: crawlTrace fetch domain maxUrls fuel s'

/-- The checkpoint `Crawl_URL.py` writes in its `finally` block from
the in-memory state at termination: every result URL is first added to
`seen`, then `{queue, seen, results}` is dumped.
`Crawl_URL_selenium.py` has the same `finally` discipline. -/
def checkpointOf (s : CrawlState) : Checkpoint :=
  { queue := s.queue,
    seen := s.seen ++ (s.results.map PageRecord.url),
    results := s.results }

/-- Restoring a checkpoint at the start of a later session
(`queue = state.get("queue")`, `seen = set(state.get("seen"))`,
`results = state.get("results")`); the new session has performed no
fetches yet. -/
def restore (c : Checkpoint) : CrawlState :=
  { queue := c.queue, seen := c.seen, results := c.results, fetches := 0 }

/-- `crawl_domain` with a state file runs the loop and then persists;
the pair of the final in-memory state and the written checkpoint. -/
def crawlRun (fetch : Url → Option Page) (domain : String)
    (maxUrls : Nat) (fuel : Nat) (s : CrawlState) :
    CrawlState × Checkpoint :=
  let f := crawlLoop fetch domain maxUrls fuel s
  (f, checkpointOf f)

/-! ### `Crawl_URL_with_response.py` -/

/-- What a successful fetch yields in `Crawl_URL_with_response.py`:
the `Content-Type` header, the extracted plain-text body (the
HTML-to-text extraction is an external heuristic, so the oracle
supplies the extracted text directly) and the resolved links. -/
structure RespPage where
  contentType : String
  body : String
  links : List Url
deriving DecidableEq, Repr

/-- Result record of `Crawl_URL_with_response.py`:
`{"domain", "url", "content_type", "response_body"}`. -/
structure RespRecord where
  domain : String
  url : Url
  content_type : String
  response_body : String
deriving DecidableEq, Repr

/-- The frontier portion persisted by `Crawl_URL_with_response.py`:
`{"queue": queue, "seen": list(seen), "results": results}`. -/
structure RespCheckpoint where
  queue : List Url
  seen : List Url
  results : List RespRecord
deriving DecidableEq, Repr

/-- In-memory state of `crawl_domain_with_response`.  Unlike
`Crawl_URL.py`, this script writes the state file *inside* the loop,
at the end of each successfully fetched iteration, and its `finally`
block does nothing; `savedCp` is the content of the state file on
disk (`none` while nothing has been written). -/
structure RespState where
  queue : List Url
  seen : List Url
  results : List RespRecord
  fetches : Nat
  savedCp : Option RespCheckpoint
deriving DecidableEq, Repr

/-- The `{queue, seen, results}` snapshot of a `RespState`. -/
def frontierOf (s : RespState) : RespCheckpoint :=
  { queue := s.queue, seen := s.seen, results := s.results }

/-- One iteration of `crawl_domain_with_response`'s `while` loop.
On a successful fetch the record is appended unconditionally
(`results.append(record)`, no duplicate check), links are enqueued for
HTML pages, and the current `{queue, seen, results}` is written to the
state file.  On a transport error the loop `continue`s without
touching the state file. -/
def respStep (fetch : Url → Option RespPage) (domain : String)
    (maxUrls : Nat) : RespState → Option RespState
  | ⟨[], _, _, _, _⟩ => none
  | ⟨url :: rest, seen, results, fetches, savedCp⟩ =>
    if maxUrls ≤ results.length then none
    else if url ∈ seen then some ⟨rest, seen, results, fetches, savedCp⟩
    else
      match fetch url with
      | none => some ⟨rest, url :: seen, results, fetches + 1, savedCp⟩
      | some page =>
        let ct := asciiLower page.contentType
        let body :=
          if strStartsWith ct "text/html" then page.body
          else if strStartsWith ct "text/" then page.body
          else ""
        let record : RespRecord := ⟨domain, url, ct, body⟩
        let queue' :=
          if strStartsWith ct "text/html" then
            enqueueLinks domain (url :: seen) rest page.links
          else rest
        some ⟨queue', url :: seen, results ++ [record], fetches + 1,
              some ⟨queue', url :: seen, results ++ [record]⟩⟩

/-- The fueled crawl loop of `Crawl_URL_with_response.py`. -/
def respLoop (fetch : Url → Option RespPage) (domain : String)
    (maxUrls : Nat) : Nat → RespState → RespState
  | 0, s => s
  | fuel + 1, s =>
    match respStep fetch domain maxUrls s with
    | none => s
    | some s' => respLoop fetch domain maxUrls fuel s'

/-- Loop-boundary states visited by `crawl_domain_with_response`. -/
def respTrace (fetch : Url → Option RespPage) (domain : String)
    (maxUrls : Nat) : Nat → RespState → List RespState
  | 0, s => [s]
  | fuel + 1, s =>
    match respStep fetch domain maxUrls s with
    | none => [s]
    | some s' => s :: respTrace fetch domain maxUrls fuel s'

/-- Restoring a `Crawl_URL_with_response.py` checkpoint in a fresh
session: the restored frontier, zero fetches so far, and the state
file on disk still holding exactly that checkpoint. -/
def respRestore (c : RespCheckpoint) : RespState :=
  { queue := c.queue, seen := c.seen, results := c.results,
    fetches := 0, savedCp := some c }

/-! ### `WebSearch.py` (`collect_qa`) -/

/-- Output record of `WebSearch.py` (`QAPair` pydantic model):
question, answer and the source URL the agent reported. -/
structure WsPair where
  question : String
  answer : String
  source_url : String
deriving DecidableEq, Repr

/-- The per-attempt filter of `collect_qa` (lines 100‑116): a returned
pair is kept only when its `source_url` is non-empty (truthiness check
`if qa and qa.source_url`), **equals** the requested `target_url`
(pairs with a different URL are filtered out, not corrected), and its
`(question, answer)` tuple is neither in the existing file nor already
processed in this attempt.  `processed` accumulates tuples kept so
far within the attempt. -/
def wsFilter (target : String) (existing : List (String × String)) :
    List WsPair → List (String × String) → List WsPair
  | [], _ => []
  | qa :: rest, processed =>
    if qa.source_url = "" then wsFilter target existing rest processed
    else if qa.source_url = target then
      if (qa.question, qa.answer) ∈ existing ∨
          (qa.question, qa.answer) ∈ processed then
        wsFilter target existing rest processed
      else
        qa :: wsFilter target existing rest
          ((qa.question, qa.answer) :: processed)
    else wsFilter target existing rest processed

/-- The attempt loop of `collect_qa`: each attempt re-reads the entire
output file into `existing_qa_set` (all `(question, answer)` tuples),
filters the agent's output (`sched attempt`, with `[]` for an empty or
failed agent run), appends the kept pairs to the file, and breaks as
soon as an attempt keeps nothing.  Returns the final file content. -/
def collectQA (target : String) (sched : Nat → List WsPair) :
    Nat → Nat → List WsPair → List WsPair
  | 0, _, file => file
  | remaining + 1, attempt, file =>
    let existing := file.map fun p => (p.question, p.answer)
    let kept := wsFilter target existing (sched attempt) []
    if kept = [] then file
    else collectQA target sched remaining (attempt + 1) (file ++ kept)

/-! ### `Create_QA_from_jsonl.py` -/

/-- Output record of `Create_QA_from_jsonl.py` (`QAPair` pydantic
model with a persona field). -/
structure JQAPair where
  question : String
  answer : String
  source_url : String
  persona : String
deriving DecidableEq, Repr

/-- A parsed JSON element of the LLM's `qa_pairs` list in
`generate_qa_for_text`: a dict whose `question`/`answer`/`source_url`
keys may each be present or absent. -/
structure RawItem where
  question : Option String
  answer : Option String
  source_url : Option String
deriving DecidableEq, Repr

/-- The conversion loop of `generate_qa_for_text` (lines 86‑96): every
dict with both a `question` and an `answer` key becomes a `QAPair`
whose `source_url` is **forced** to the requested `url` and whose
persona is the persona of this attempt; whatever `source_url` the
model returned is ignored. -/
def generate_qa_for_text (url persona : String) (items : List RawItem) :
    List JQAPair :=
  items.filterMap fun it =>
    match it.question, it.answer with
    | some q, some a => some ⟨q, a, url, persona⟩
    | _, _ => none

/-- `len(PERSONAS)` in `Create_QA_from_jsonl.py`. -/
def personasLen : Nat := 8

/-- `QA_PER_REQUEST` in `Create_QA_from_jsonl.py`. -/
def qaPerRequest : Nat := 3

/-- The display string `f"- Q: {q}\n  A: {a}"` appended to the
existing-QA prompt list. -/
def displayStr (q a : String) : String :=
  "- Q: " ++ q ++ "\n  A: " ++ a

/-- Mutable state of `process_url_content`'s attempt loop:
`existing` is `all_existing_qa_tuples`, `fileNew` the pairs appended
to the output file by this run, `display` the
`existing_qa_for_this_url_display` prompt list, `count` the
`generated_qa_for_this_url_count`, and `calls` counts invocations of
the QA generator. -/
structure QAState where
  existing : List (String × String)
  fileNew : List JQAPair
  display : List String
  count : Nat
  calls : Nat
deriving DecidableEq, Repr

/-- Inner write loop of `process_url_content` (lines 181‑196): for
each generated pair, stop once the per-URL cap is reached; otherwise
append the pair to the file, the ledger and the display list exactly
when its `(question, answer)` tuple is not in the ledger. -/
def writePairs (maxQa : Nat) : List JQAPair → QAState → QAState
  | [], st => st
  | qa :: rest, st =>
    if maxQa ≤ st.count then st
    else if (qa.question, qa.answer) ∈ st.existing then
      writePairs maxQa rest st
    else
      writePairs maxQa rest
        { existing := (qa.question, qa.answer) :: st.existing,
          fileNew := st.fileNew ++ [qa],
          display := st.display ++ [displayStr qa.question qa.answer],
          count := st.count + 1,
          calls := st.calls }

/-- The attempt loop of `process_url_content` (lines 151‑208).
`sched attempt` is the generator's output for that attempt (`[]` for
an empty or failed generation).  An empty result aborts the URL's
processing when `attempt > len(PERSONAS) * 2` (a check on the 0-based
attempt index, not on any consecutive-empty count); otherwise the loop
continues with the next attempt. -/
def qaLoop (maxQa : Nat) (sched : Nat → List JQAPair) :
    Nat → Nat → QAState → QAState
  | 0, _, st => st
  | remaining + 1, attempt, st =>
    if maxQa ≤ st.count then st
    else
      let pairs := sched attempt
      let st1 := { st with calls := st.calls + 1 }
      if pairs = [] then
        if personasLen * 2 < attempt then st1
        else qaLoop maxQa sched remaining (attempt + 1) st1
      else qaLoop maxQa sched remaining (attempt + 1) (writePairs maxQa pairs st1)

/-- Ledger seeding of `process_url_content` (lines 125‑138): a line of
the existing output file contributes its `(question, answer)` tuple
only when **both** strings are truthy (`if q and a`), i.e. non-empty. -/
def seedTuples (file0 : List JQAPair) : List (String × String) :=
  file0.filterMap fun p =>
    if p.question ≠ "" ∧ p.answer ≠ "" then some (p.question, p.answer)
    else none

/-- Prompt-list seeding: display strings of existing pairs of this URL
(also only for lines with truthy question and answer). -/
def seedDisplay (url : String) (file0 : List JQAPair) : List String :=
  file0.filterMap fun p =>
    if p.question ≠ "" ∧ p.answer ≠ "" ∧ p.source_url = url then
      some (displayStr p.question p.answer)
    else none

/-- `max_attempts_per_persona_cycle =
(max_qa_per_url // QA_PER_REQUEST) + len(PERSONAS) + 5`. -/
def maxAttemptsFor (maxQa : Nat) : Nat :=
  maxQa / qaPerRequest + personasLen + 5

/-- One run of `process_url_content` for a URL against an output file
holding `file0`: seed the ledger and the prompt list from the file,
then run the attempt loop; returns the final loop state. -/
def processUrlContent (url : String) (sched : Nat → List JQAPair)
    (maxQa : Nat) (file0 : List JQAPair) : QAState :=
  qaLoop maxQa sched (maxAttemptsFor maxQa) 0
    ⟨seedTuples file0, [], seedDisplay url file0, 0, 0⟩

/-- The output file after one run: the previous content with this
run's accepted pairs appended. -/
def fileAfterRun (url : String) (sched : Nat → List JQAPair)
    (maxQa : Nat) (file0 : List JQAPair) : List JQAPair :=
  file0 ++ (processUrlContent url sched maxQa file0).fileNew

/-- The output file after a sequence of process restarts sharing the
same output file, each run with its own generator behaviour. -/
def fileAfterRuns (url : String) (maxQa : Nat) :
    List JQAPair → List (Nat → List JQAPair) → List JQAPair
  | file0, [] => file0
  | file0, sched :: rest =>
    fileAfterRuns url maxQa (fileAfterRun url sched maxQa file0) rest

/-! ### `Create_QA_from_jsonl_alt_fixed.py` -/

/-- `BasicQAPair` pydantic model. -/
structure BasicQA where
  question : String
  answer : String
  source_url : String
deriving DecidableEq, Repr

/-- The `source_url` correction applied by `generate_basic_qa`
(lines 235‑240) and by `improve_qa_based_on_feedback` (lines 535‑540):
if the agent's pair carries a different `source_url`, rebuild the pair
with the expected identifier. -/
def fixSourceUrl (source_identifier : String) (qa : BasicQA) : BasicQA :=
  if qa.source_url = source_identifier then qa
  else { qa with source_url := source_identifier }

/-- `generate_basic_qa`: the agent either produces a pair (`some raw`)
or nothing/raises (`none`); a produced pair has its `source_url`
corrected before being returned. -/
def generate_basic_qa (source_identifier : String)
    (raw : Option BasicQA) : Option BasicQA :=
  raw.map (fixSourceUrl source_identifier)

/-- `QAEvaluation` pydantic model. -/
structure QAEvaluationM where
  overall_score : Int
  overall_rating : String
  source_coverage_score : Int
  question_specificity_score : Int
  condition_clarity_score : Int
  strengths : List String
  improvement_areas : List String
  specific_suggestions : List String
  needs_improvement : Bool
  improvement_priority : String
deriving DecidableEq, Repr

/-- Running state of the improve cycle in
`generate_complete_qa_with_evaluation` (lines 601‑644): the current
pair and its current evaluation, the metadata carried into the final
`QAPair` (`evaluation_score`, `evaluation_rating`,
`improvement_iterations`), an instrumentation counter of improvement
calls issued, and the list of re-evaluation scores that were accepted
(in order). -/
structure ImpState where
  qa : BasicQA
  eval : QAEvaluationM
  score : Option Int
  rating : Option String
  iters : Nat
  improveCalls : Nat
  accepted : List Int
deriving DecidableEq, Repr

/-- The improve cycle `for iteration in range(max_improvement_iterations)`:
call the improvement agent (`impO iteration`, `none` on failure, with
the `source_url` correction applied to its output), re-evaluate
(`revO iteration`), and replace the current pair only when the
re-evaluation score is strictly greater than the current score; stop
as soon as an accepted score reaches 80, and stop on any failure or
non-improvement. -/
def improveCycle (src : String) (impO : Nat → Option BasicQA)
    (revO : Nat → Option QAEvaluationM) :
    Nat → Nat → ImpState → ImpState
  | 0, _, st => st
  | remaining + 1, iteration, st =>
    let st0 := { st with improveCalls := st.improveCalls + 1 }
    match impO iteration with
    | none => st0
    | some rawImproved =>
      let improved := fixSourceUrl src rawImproved
      match revO iteration with
      | none => st0
      | some re =>
        if st.eval.overall_score < re.overall_score then
          let st1 : ImpState :=
            { st0 with qa := improved, eval := re,
                       score := some re.overall_score,
                       rating := some re.overall_rating,
                       iters := iteration + 1,
                       accepted := st.accepted ++ [re.overall_score] }
          if 80 ≤ re.overall_score then st1
          else improveCycle src impO revO remaining (iteration + 1) st1
        else st0

/-- What `generate_complete_qa_with_evaluation` decides about the
question/answer part and its evaluation metadata (the later
persona/category/keyword enrichment does not touch these fields). -/
structure QAGenOutcome where
  qa : BasicQA
  score : Option Int
  rating : Option String
  iters : Nat
  improveCalls : Nat
  accepted : List Int
deriving DecidableEq, Repr

/-- The evaluate/improve part of `generate_complete_qa_with_evaluation`
(lines 573‑646), given a generated `basicQa`: if the initial
evaluation failed (`none`) the pair is kept with no score; otherwise
the improve cycle runs exactly when the evaluation has
`needs_improvement` set and priority `high` or `medium`. -/
def evalImprove (src : String) (eval0 : Option QAEvaluationM)
    (impO : Nat → Option BasicQA) (revO : Nat → Option QAEvaluationM)
    (maxIter : Nat) (basicQa : BasicQA) : QAGenOutcome :=
  match eval0 with
  | none => ⟨basicQa, none, none, 0, 0, []⟩
  | some e =>
    if e.needs_improvement ∧
        (e.improvement_priority = "high" ∨ e.improvement_priority = "medium") then
      let st := improveCycle src impO revO maxIter 0
        ⟨basicQa, e, some e.overall_score, some e.overall_rating, 0, 0, []⟩
      ⟨st.qa, st.score, st.rating, st.iters, st.improveCalls, st.accepted⟩
    else ⟨basicQa, some e.overall_score, some e.overall_rating, 0, 0, []⟩

/-- The full `QAPair` pydantic model of
`Create_QA_from_jsonl_alt_fixed.py`. -/
structure FullQA where
  question : String
  answer : String
  source_url : String
  questioner_persona : String
  information_category : String
  related_keywords : List String
  evaluation_score : Option Int
  evaluation_rating : Option String
  improvement_iterations : Option Nat
deriving DecidableEq, Repr

/-- Mutable state of `process_single_entry`'s attempt loop.
`globalSet` is the shared `global_existing_qa_set` ledger, `fileNew`
the pairs this entry appended to the output file, `display` the
`existing_qa_for_current_source_display` prompt list, `count` the
`current_entry_added_count`, and `calls` counts invocations of the
complete-QA generator. -/
structure SEState where
  globalSet : List (String × String)
  fileNew : List FullQA
  display : List String
  count : Nat
  calls : Nat
deriving DecidableEq, Repr

/-- One attempt of `process_single_entry` (lines 845‑895): generate a
complete pair (`genO attempt`, `none` on failure); when it is novel,
its tuple is inserted into the ledger **under the lock, before** the
file append is attempted; `save_qa_to_file` succeeding
(`writeOk attempt`) appends the pair to the file, the display list
and the counter, while a failed save changes nothing further — in
particular the tuple stays in the ledger. -/
def seStep (genO : Nat → Option FullQA) (writeOk : Nat → Bool)
    (attempt : Nat) (st : SEState) : SEState :=
  let st0 := { st with calls := st.calls + 1 }
  match genO attempt with
  | none => st0
  | some qa =>
    if (qa.question, qa.answer) ∈ st0.globalSet then st0
    else
      let st1 := { st0 with globalSet := (qa.question, qa.answer) :: st0.globalSet }
      if writeOk attempt then
        { st1 with fileNew := st1.fileNew ++ [qa],
                   display := st1.display ++ [displayStr qa.question qa.answer],
                   count := st1.count + 1 }
      else st1

/-- The attempt loop of `process_single_entry`:
`for attempt in range(max_q_per_entry)` — it contains no break, so all
attempts run regardless of failures, duplicates or empty results. -/
def seLoop (genO : Nat → Option FullQA) (writeOk : Nat → Bool) :
    Nat → Nat → SEState → SEState
  | 0, _, st => st
  | remaining + 1, attempt, st =>
    seLoop genO writeOk remaining (attempt + 1) (seStep genO writeOk attempt st)

/-- Dedup identity of a `Create_QA_from_jsonl_alt_fixed.py` pair: its
`(question, answer)` tuple. -/
def fullKey (p : FullQA) : String × String := (p.question, p.answer)

/-- Ledger seeding of `process_jsonl_parallel_entries` (lines
926‑935): **every** line of the existing output file contributes its
`(question, answer)` tuple to `global_existing_qa_set` — there is no
truthiness filter here, unlike `Create_QA_from_jsonl.py`. -/
def seSeed (file : List FullQA) : List (String × String) :=
  file.map fullKey

/-- `collect_existing_qa_for_source` (lines 780‑797): the prompt list
for one entry, from the file lines whose `source_url` matches and
whose question and answer are truthy (`if q and a`). -/
def collect_existing_qa_for_source (sid : String) (file : List FullQA) :
    List String :=
  file.filterMap fun p =>
    if p.source_url = sid ∧ p.question ≠ "" ∧ p.answer ≠ "" then
      some (displayStr p.question p.answer)
    else none

/-- The entry sequence of `process_jsonl_parallel_entries` (with the
default `max_concurrent_entries = 1`, entries run sequentially, and
the `file_lock` serializes ledger and file access in any case): each
entry `(sourceId, generator, writeOutcome, maxQPerEntry)` runs
`process_single_entry` against the shared ledger, appending its
accepted pairs to the shared output file.  Returns the final
`(ledger, file)`. -/
def seProcessEntries :
    List (String × (Nat → Option FullQA) × (Nat → Bool) × Nat) →
    List (String × String) → List FullQA →
    List (String × String) × List FullQA
  | [], gset, file => (gset, file)
  | (sid, genO, writeOk, maxQ) :: rest, gset, file =>
    let r := seLoop genO writeOk maxQ 0
      ⟨gset, [], collect_existing_qa_for_source sid file, 0, 0⟩
    seProcessEntries rest r.globalSet (file ++ r.fileNew)

/-- One run of `process_jsonl_parallel_entries` against an output file
holding `file0`: seed the ledger from the whole file, process the
entries, return the file content afterwards. -/
def seParallelRun
    (entries : List (String × (Nat → Option FullQA) × (Nat → Bool) × Nat))
    (file0 : List FullQA) : List FullQA :=
  (seProcessEntries entries (seSeed file0) file0).2

/-- The output file after a sequence of
`process_jsonl_parallel_entries` process restarts sharing the same
output file. -/
def seParallelRuns :
    List FullQA →
    List (List (String × (Nat → Option FullQA) × (Nat → Bool) × Nat)) →
    List FullQA
  | file0, [] => file0
  | file0, run :: rest => seParallelRuns (seParallelRun run file0) rest

/-- Dedup identity of a `Create_QA_from_jsonl.py` pair: its
`(question, answer)` tuple. -/
def qaKey (p : JQAPair) : String × String := (p.question, p.answer)

/-- Modelled from the spec: the number of generator calls the attempt
loop would make if, as the spec sentence says, empty results were
"counted by a consecutive empty counter", the source were aborted
"once a threshold of consecutive empty attempts is exceeded", and a
non-empty attempt reset the counter.  `T` is the threshold, `consec`
the current consecutive-empty count.  This definition follows the
spec's words and is only used to compare against the code model
`qaLoop`/`processUrlContent`. -/
def specConsecutiveEmptyCalls (T : Nat) (sched : Nat → List JQAPair) :
    Nat → Nat → Nat → Nat
  | 0, _, _ => 0
  | remaining + 1, attempt, consec =>
    if sched attempt = [] then
      if T < consec + 1 then 1
      else 1 + specConsecutiveEmptyCalls T sched remaining (attempt + 1) (consec + 1)
    else 1 + specConsecutiveEmptyCalls T sched remaining (attempt + 1) 0

/-! ## Helper lemmas about the crawl loops -/

lemma enqueueLinks_mem (domain : String) (seen : List Url) :
    ∀ (links queue : List Url) (l : Url),
      l ∈ enqueueLinks domain seen queue links →
      l ∈ queue ∨ (l.netloc = domain ∧ (l.scheme = "http" ∨ l.scheme = "https")) := by
  intro links
  induction links with
  | nil => intro queue l h; simp only [enqueueLinks] at h; exact Or.inl h
  | cons x rest ih =>
    intro queue l h
    simp only [enqueueLinks] at h
    split at h
    next hcond =>
      rcases ih (queue ++ [x]) l h with h' | h'
      · rcases List.mem_append.mp h' with h'' | h''
        · exact Or.inl h''
        · have hx : l = x := by simpa using h''
          subst hx
          exact Or.inr ⟨hcond.1, hcond.2.1⟩
      · exact Or.inr h'
    next hcond => exact ih queue l h

lemma crawlStep_nodup (fetch : Url → Option Page) (domain : String) (maxUrls : Nat)
    {s s' : CrawlState} (h : crawlStep fetch domain maxUrls s = some s')
    (h1 : (s.results.map PageRecord.url).Nodup)
    (h2 : ∀ r ∈ s.results, r.url ∈ s.seen) :
    ((s'.results.map PageRecord.url).Nodup) ∧ (∀ r ∈ s'.results, r.url ∈ s'.seen) := by
  obtain ⟨queue, seen, results, fetches⟩ := s
  cases queue with
  | nil => simp [crawlStep] at h
  | cons url rest =>
    simp only [crawlStep] at h
    split at h
    · simp at h
    · split at h
      next hseen =>
        cases h
        exact ⟨h1, h2⟩
      next hseen =>
        rcases hfetch : fetch url with _ | page <;> rw [hfetch] at h
        · cases h
          refine ⟨h1, fun r hr => ?_⟩
          exact List.mem_cons_of_mem _ (h2 r hr)
        · simp only at h
          injection h with h
          subst h
          dsimp only at h1 h2 ⊢
          by_cases hrec : (⟨domain, url, asciiLower page.contentType⟩ : PageRecord) ∈ results
          · simp only [if_pos hrec]
            exact ⟨h1, fun r hr => List.mem_cons_of_mem _ (h2 r hr)⟩
          · simp only [if_neg hrec]
            have hurl : url ∉ results.map PageRecord.url := by
              intro hmem
              rcases List.mem_map.mp hmem with ⟨r, hr, hru⟩
              exact hseen (hru ▸ h2 r hr)
            constructor
            · simp only [List.map_append, List.map_cons, List.map_nil]
              rw [List.nodup_append]
              exact ⟨h1, List.nodup_singleton _, by
                intro a ha hb
                have hb' : a = url := by simpa using hb
                exact hurl (hb' ▸ ha)⟩
            · intro r hr
              rcases List.mem_append.mp hr with hr2 | hr2
              · exact List.mem_cons_of_mem _ (h2 r hr2)
              · rw [List.mem_singleton.mp hr2]
                exact List.mem_cons_self _ _

lemma crawlLoop_nodup (fetch : Url → Option Page) (domain : String) (maxUrls : Nat) :
    ∀ (fuel : Nat) (s : CrawlState),
      (s.results.map PageRecord.url).Nodup → (∀ r ∈ s.results, r.url ∈ s.seen) →
      ((crawlLoop fetch domain maxUrls fuel s).results.map PageRecord.url).Nodup ∧
      (∀ r ∈ (crawlLoop fetch domain maxUrls fuel s).results,
        r.url ∈ (crawlLoop fetch domain maxUrls fuel s).seen) := by
  intro fuel
  induction fuel with
  | zero => intro s h1 h2; exact ⟨h1, h2⟩
  | succ n ih =>
    intro s h1 h2
    rcases hstep : crawlStep fetch domain maxUrls s with _ | s' <;>
      simp only [crawlLoop, hstep]
    · exact ⟨h1, h2⟩
    · obtain ⟨h1', h2'⟩ := crawlStep_nodup fetch domain maxUrls hstep h1 h2
      exact ih s' h1' h2'

lemma respStep_nodup (fetch : Url → Option RespPage) (domain : String) (maxUrls : Nat)
    {s s' : RespState} (h : respStep fetch domain maxUrls s = some s')
    (h1 : (s.results.map RespRecord.url).Nodup)
    (h2 : ∀ r ∈ s.results, r.url ∈ s.seen) :
    ((s'.results.map RespRecord.url).Nodup) ∧ (∀ r ∈ s'.results, r.url ∈ s'.seen) := by
  obtain ⟨queue, seen, results, fetches, savedCp⟩ := s
  cases queue with
  | nil => simp [respStep] at h
  | cons url rest =>
    simp only [respStep] at h
    split at h
    · simp at h
    · split at h
      next hseen =>
        cases h
        exact ⟨h1, h2⟩
      next hseen =>
        rcases hfetch : fetch url with _ | page <;> rw [hfetch] at h
        · cases h
          exact ⟨h1, fun r hr => List.mem_cons_of_mem _ (h2 r hr)⟩
        · simp only at h
          injection h with h
          subst h
          dsimp only at h1 h2 ⊢
          have hurl : url ∉ results.map RespRecord.url := by
            intro hmem
            rcases List.mem_map.mp hmem with ⟨r, hr, hru⟩
            exact hseen (hru ▸ h2 r hr)
          constructor
          · simp only [List.map_append, List.map_cons, List.map_nil]
            rw [List.nodup_append]
            exact ⟨h1, List.nodup_singleton _, by
              intro a ha hb
              have hb' : a = url := by simpa using hb
              exact hurl (hb' ▸ ha)⟩
          · intro r hr
            rcases List.mem_append.mp hr with hr2 | hr2
            · exact List.mem_cons_of_mem _ (h2 r hr2)
            · rw [List.mem_singleton.mp hr2]
              exact List.mem_cons_self _ _

lemma respLoop_nodup (fetch : Url → Option RespPage) (domain : String) (maxUrls : Nat) :
    ∀ (fuel : Nat) (s : RespState),
      (s.results.map RespRecord.url).Nodup → (∀ r ∈ s.results, r.url ∈ s.seen) →
      ((respLoop fetch domain maxUrls fuel s).results.map RespRecord.url).Nodup ∧
      (∀ r ∈ (respLoop fetch domain maxUrls fuel s).results,
        r.url ∈ (respLoop fetch domain maxUrls fuel s).seen) := by
  intro fuel
  induction fuel with
  | zero => intro s h1 h2; exact ⟨h1, h2⟩
  | succ n ih =>
    intro s h1 h2
    rcases hstep : respStep fetch domain maxUrls s with _ | s' <;>
      simp only [respLoop, hstep]
    · exact ⟨h1, h2⟩
    · obtain ⟨h1', h2'⟩ := respStep_nodup fetch domain maxUrls hstep h1 h2
      exact ih s' h1' h2'

lemma crawlStep_budget (fetch : Url → Option Page) (domain : String) (maxUrls : Nat)
    {s s' : CrawlState} (h : crawlStep fetch domain maxUrls s = some s')
    (hb : s.results.length ≤ maxUrls) : s'.results.length ≤ maxUrls := by
  obtain ⟨queue, seen, results, fetches⟩ := s
  dsimp only at hb
  cases queue with
  | nil => simp [crawlStep] at h
  | cons url rest =>
    simp only [crawlStep] at h
    split at h
    · simp at h
    next hlen =>
      split at h
      · injection h with h
        subst h
        exact hb
      next hseen =>
        rcases hfetch : fetch url with _ | page <;> rw [hfetch] at h
        · injection h with h
          subst h
          exact hb
        · simp only at h
          injection h with h
          subst h
          dsimp only
          split
          · exact hb
          · simp only [List.length_append, List.length_cons, List.length_nil]
            omega

lemma crawlTrace_budget (fetch : Url → Option Page) (domain : String) (maxUrls : Nat) :
    ∀ (fuel : Nat) (s : CrawlState), s.results.length ≤ maxUrls →
      ∀ t ∈ crawlTrace fetch domain maxUrls fuel s, t.results.length ≤ maxUrls := by
  intro fuel
  induction fuel with
  | zero =>
    intro s hb t ht
    simp only [crawlTrace, List.mem_singleton] at ht
    exact ht ▸ hb
  | succ n ih =>
    intro s hb t ht
    rcases hstep : crawlStep fetch domain maxUrls s with _ | s' <;>
      simp only [crawlTrace, hstep, List.mem_singleton, List.mem_cons] at ht
    · rcases ht with ht | ht
      · exact ht ▸ hb
      · exact absurd ht (List.not_mem_nil t)
    · rcases ht with ht | ht
      · exact ht ▸ hb
      · exact ih s' (crawlStep_budget fetch domain maxUrls hstep hb) t ht

lemma respStep_budget (fetch : Url → Option RespPage) (domain : String) (maxUrls : Nat)
    {s s' : RespState} (h : respStep fetch domain maxUrls s = some s')
    (hb : s.results.length ≤ maxUrls) : s'.results.length ≤ maxUrls := by
  obtain ⟨queue, seen, results, fetches, savedCp⟩ := s
  dsimp only at hb
  cases queue with
  | nil => simp [respStep] at h
  | cons url rest =>
    simp only [respStep] at h
    split at h
    · simp at h
    next hlen =>
      split at h
      · injection h with h
        subst h
        exact hb
      next hseen =>
        rcases hfetch : fetch url with _ | page <;> rw [hfetch] at h
        · injection h with h
          subst h
          exact hb
        · simp only at h
          injection h with h
          subst h
          dsimp only
          simp only [List.length_append, List.length_cons, List.length_nil]
          omega

lemma respTrace_budget (fetch : Url → Option RespPage) (domain : String) (maxUrls : Nat) :
    ∀ (fuel : Nat) (s : RespState), s.results.length ≤ maxUrls →
      ∀ t ∈ respTrace fetch domain maxUrls fuel s, t.results.length ≤ maxUrls := by
  intro fuel
  induction fuel with
  | zero =>
    intro s hb t ht
    simp only [respTrace, List.mem_singleton] at ht
    exact ht ▸ hb
  | succ n ih =>
    intro s hb t ht
    rcases hstep : respStep fetch domain maxUrls s with _ | s' <;>
      simp only [respTrace, hstep, List.mem_singleton, List.mem_cons] at ht
    · rcases ht with ht | ht
      · exact ht ▸ hb
      · exact absurd ht (List.not_mem_nil t)
    · rcases ht with ht | ht
      · exact ht ▸ hb
      · exact ih s' (respStep_budget fetch domain maxUrls hstep hb) t ht

lemma crawlStep_queue_mem (fetch : Url → Option Page) (domain : String) (maxUrls : Nat)
    {s s' : CrawlState} (h : crawlStep fetch domain maxUrls s = some s') :
    ∀ u ∈ s'.queue, u ∈ s.queue ∨
      (u.netloc = domain ∧ (u.scheme = "http" ∨ u.scheme = "https")) := by
  obtain ⟨queue, seen, results, fetches⟩ := s
  cases queue with
  | nil => simp [crawlStep] at h
  | cons url rest =>
    simp only [crawlStep] at h
    split at h
    · simp at h
    next hlen =>
      split at h
      · injection h with h
        subst h
        exact fun u hu => Or.inl (List.mem_cons_of_mem _ hu)
      next hseen =>
        rcases hfetch : fetch url with _ | page <;> rw [hfetch] at h
        · injection h with h
          subst h
          exact fun u hu => Or.inl (List.mem_cons_of_mem _ hu)
        · simp only at h
          injection h with h
          subst h
          dsimp only
          intro u hu
          split at hu
          · rcases enqueueLinks_mem domain (url :: seen) page.links rest u hu with h' | h'
            · exact Or.inl (List.mem_cons_of_mem _ h')
            · exact Or.inr h'
          · exact Or.inl (List.mem_cons_of_mem _ hu)

lemma crawlTrace_queue (fetch : Url → Option Page) (domain : String) (maxUrls : Nat) :
    ∀ (fuel : Nat) (s : CrawlState), ∀ t ∈ crawlTrace fetch domain maxUrls fuel s,
      ∀ u ∈ t.queue, u ∈ s.queue ∨
        (u.netloc = domain ∧ (u.scheme = "http" ∨ u.scheme = "https")) := by
  intro fuel
  induction fuel with
  | zero =>
    intro s t ht
    simp only [crawlTrace, List.mem_singleton] at ht
    exact fun u hu => Or.inl (ht ▸ hu)
  | succ n ih =>
    intro s t ht
    rcases hstep : crawlStep fetch domain maxUrls s with _ | s' <;>
      simp only [crawlTrace, hstep, List.mem_singleton, List.mem_cons] at ht
    · rcases ht with ht | ht
      · exact fun u hu => Or.inl (ht ▸ hu)
      · exact absurd ht (List.not_mem_nil t)
    · rcases ht with ht | ht
      · exact fun u hu => Or.inl (ht ▸ hu)
      · intro u hu
        rcases ih s' t ht u hu with h' | h'
        · exact crawlStep_queue_mem fetch domain maxUrls hstep u h'
        · exact Or.inr h'

lemma crawlStep_domain (fetch : Url → Option Page) (domain : String) (maxUrls : Nat)
    {s s' : CrawlState} (h : crawlStep fetch domain maxUrls s = some s')
    (hq : ∀ u ∈ s.queue, u.netloc = domain) :
    (∀ u ∈ s'.queue, u.netloc = domain) ∧
    (∀ r ∈ s'.results, r ∈ s.results ∨ r.url.netloc = domain) := by
  constructor
  · intro u hu
    rcases crawlStep_queue_mem fetch domain maxUrls h u hu with h' | h'
    · exact hq u h'
    · exact h'.1
  · obtain ⟨queue, seen, results, fetches⟩ := s
    cases queue with
    | nil => simp [crawlStep] at h
    | cons url rest =>
      simp only [crawlStep] at h
      split at h
      · simp at h
      next hlen =>
        split at h
        · injection h with h
          subst h
          exact fun r hr => Or.inl hr
        next hseen =>
          rcases hfetch : fetch url with _ | page <;> rw [hfetch] at h
          · injection h with h
            subst h
            exact fun r hr => Or.inl hr
          · simp only at h
            injection h with h
            subst h
            dsimp only
            intro r hr
            split at hr
            · exact Or.inl hr
            · rcases List.mem_append.mp hr with hr2 | hr2
              · exact Or.inl hr2
              · rw [List.mem_singleton.mp hr2]
                exact Or.inr (hq url (List.mem_cons_self _ _))

lemma crawlLoop_domain (fetch : Url → Option Page) (domain : String) (maxUrls : Nat) :
    ∀ (fuel : Nat) (s : CrawlState), (∀ u ∈ s.queue, u.netloc = domain) →
      ∀ r ∈ (crawlLoop fetch domain maxUrls fuel s).results,
        r ∈ s.results ∨ r.url.netloc = domain := by
  intro fuel
  induction fuel with
  | zero => intro s _ r hr; exact Or.inl hr
  | succ n ih =>
    intro s hq r hr
    rcases hstep : crawlStep fetch domain maxUrls s with _ | s' <;>
      simp only [crawlLoop, hstep] at hr
    · exact Or.inl hr
    · obtain ⟨hq', hres⟩ := crawlStep_domain fetch domain maxUrls hstep hq
      rcases ih s' hq' r hr with h' | h'
      · exact hres r h'
      · exact Or.inr h'

lemma respStep_queue_mem (fetch : Url → Option RespPage) (domain : String) (maxUrls : Nat)
    {s s' : RespState} (h : respStep fetch domain maxUrls s = some s') :
    ∀ u ∈ s'.queue, u ∈ s.queue ∨
      (u.netloc = domain ∧ (u.scheme = "http" ∨ u.scheme = "https")) := by
  obtain ⟨queue, seen, results, fetches, savedCp⟩ := s
  cases queue with
  | nil => simp [respStep] at h
  | cons url rest =>
    simp only [respStep] at h
    split at h
    · simp at h
    next hlen =>
      split at h
      · injection h with h
        subst h
        exact fun u hu => Or.inl (List.mem_cons_of_mem _ hu)
      next hseen =>
        rcases hfetch : fetch url with _ | page <;> rw [hfetch] at h
        · injection h with h
          subst h
          exact fun u hu => Or.inl (List.mem_cons_of_mem _ hu)
        · simp only at h
          injection h with h
          subst h
          dsimp only
          intro u hu
          split at hu
          · rcases enqueueLinks_mem domain (url :: seen) page.links rest u hu with h' | h'
            · exact Or.inl (List.mem_cons_of_mem _ h')
            · exact Or.inr h'
          · exact Or.inl (List.mem_cons_of_mem _ hu)

lemma respTrace_queue (fetch : Url → Option RespPage) (domain : String) (maxUrls : Nat) :
    ∀ (fuel : Nat) (s : RespState), ∀ t ∈ respTrace fetch domain maxUrls fuel s,
      ∀ u ∈ t.queue, u ∈ s.queue ∨
        (u.netloc = domain ∧ (u.scheme = "http" ∨ u.scheme = "https")) := by
  intro fuel
  induction fuel with
  | zero =>
    intro s t ht
    simp only [respTrace, List.mem_singleton] at ht
    exact fun u hu => Or.inl (ht ▸ hu)
  | succ n ih =>
    intro s t ht
    rcases hstep : respStep fetch domain maxUrls s with _ | s' <;>
      simp only [respTrace, hstep, List.mem_singleton, List.mem_cons] at ht
    · rcases ht with ht | ht
      · exact fun u hu => Or.inl (ht ▸ hu)
      · exact absurd ht (List.not_mem_nil t)
    · rcases ht with ht | ht
      · exact fun u hu => Or.inl (ht ▸ hu)
      · intro u hu
        rcases ih s' t ht u hu with h' | h'
        · exact respStep_queue_mem fetch domain maxUrls hstep u h'
        · exact Or.inr h'

lemma respStep_domain (fetch : Url → Option RespPage) (domain : String) (maxUrls : Nat)
    {s s' : RespState} (h : respStep fetch domain maxUrls s = some s')
    (hq : ∀ u ∈ s.queue, u.netloc = domain) :
    (∀ u ∈ s'.queue, u.netloc = domain) ∧
    (∀ r ∈ s'.results, r ∈ s.results ∨ r.url.netloc = domain) := by
  constructor
  · intro u hu
    rcases respStep_queue_mem fetch domain maxUrls h u hu with h' | h'
    · exact hq u h'
    · exact h'.1
  · obtain ⟨queue, seen, results, fetches, savedCp⟩ := s
    cases queue with
    | nil => simp [respStep] at h
    | cons url rest =>
      simp only [respStep] at h
      split at h
      · simp at h
      next hlen =>
        split at h
        · injection h with h
          subst h
          exact fun r hr => Or.inl hr
        next hseen =>
          rcases hfetch : fetch url with _ | page <;> rw [hfetch] at h
          · injection h with h
            subst h
            exact fun r hr => Or.inl hr
          · simp only at h
            injection h with h
            subst h
            dsimp only
            intro r hr
            rcases List.mem_append.mp hr with hr2 | hr2
            · exact Or.inl hr2
            · rw [List.mem_singleton.mp hr2]
              exact Or.inr (hq url (List.mem_cons_self _ _))

lemma respLoop_domain (fetch : Url → Option RespPage) (domain : String) (maxUrls : Nat) :
    ∀ (fuel : Nat) (s : RespState), (∀ u ∈ s.queue, u.netloc = domain) →
      ∀ r ∈ (respLoop fetch domain maxUrls fuel s).results,
        r ∈ s.results ∨ r.url.netloc = domain := by
  intro fuel
  induction fuel with
  | zero => intro s _ r hr; exact Or.inl hr
  | succ n ih =>
    intro s hq r hr
    rcases hstep : respStep fetch domain maxUrls s with _ | s' <;>
      simp only [respLoop, hstep] at hr
    · exact Or.inl hr
    · obtain ⟨hq', hres⟩ := respStep_domain fetch domain maxUrls hstep hq
      rcases ih s' hq' r hr with h' | h'
      · exact hres r h'
      · exact Or.inr h'

lemma crawlStep_seen_mono (fetch : Url → Option Page) (domain : String) (maxUrls : Nat)
    {s s' : CrawlState} (h : crawlStep fetch domain maxUrls s = some s') :
    ∀ u ∈ s.seen, u ∈ s'.seen := by
  obtain ⟨queue, seen, results, fetches⟩ := s
  cases queue with
  | nil => simp [crawlStep] at h
  | cons url rest =>
    simp only [crawlStep] at h
    split at h
    · simp at h
    next hlen =>
      split at h
      · injection h with h
        subst h
        exact fun u hu => hu
      next hseen =>
        rcases hfetch : fetch url with _ | page <;> rw [hfetch] at h
        · injection h with h
          subst h
          exact fun u hu => List.mem_cons_of_mem _ hu
        · simp only at h
          injection h with h
          subst h
          exact fun u hu => List.mem_cons_of_mem _ hu

lemma crawlLoop_seen_mono (fetch : Url → Option Page) (domain : String) (maxUrls : Nat) :
    ∀ (fuel : Nat) (s : CrawlState), ∀ u ∈ s.seen,
      u ∈ (crawlLoop fetch domain maxUrls fuel s).seen := by
  intro fuel
  induction fuel with
  | zero => intro s u hu; exact hu
  | succ n ih =>
    intro s u hu
    rcases hstep : crawlStep fetch domain maxUrls s with _ | s' <;>
      simp only [crawlLoop, hstep]
    · exact hu
    · exact ih s' u (crawlStep_seen_mono fetch domain maxUrls hstep u hu)

lemma crawlTrace_seen (fetch : Url → Option Page) (domain : String) (maxUrls : Nat) :
    ∀ (fuel : Nat) (s : CrawlState), ∀ t ∈ crawlTrace fetch domain maxUrls fuel s,
      ∀ u ∈ t.seen, u ∈ (crawlLoop fetch domain maxUrls fuel s).seen := by
  intro fuel
  induction fuel with
  | zero =>
    intro s t ht
    simp only [crawlTrace, List.mem_singleton] at ht
    exact fun u hu => ht ▸ hu
  | succ n ih =>
    intro s t ht
    rcases hstep : crawlStep fetch domain maxUrls s with _ | s' <;>
      simp only [crawlTrace, hstep, List.mem_singleton, List.mem_cons] at ht <;>
      simp only [crawlLoop, hstep]
    · rcases ht with ht | ht
      · exact fun u hu => ht ▸ hu
      · exact absurd ht (List.not_mem_nil t)
    · rcases ht with ht | ht
      · intro u hu
        exact crawlLoop_seen_mono fetch domain maxUrls n s' u
          (crawlStep_seen_mono fetch domain maxUrls hstep u (ht ▸ hu))
      · exact ih s' t ht

lemma crawlStep_none_terminal (fetch : Url → Option Page) (domain : String)
    (maxUrls : Nat) {s : CrawlState}
    (h : s.queue = [] ∨ maxUrls ≤ s.results.length) :
    crawlStep fetch domain maxUrls s = none := by
  obtain ⟨queue, seen, results, fetches⟩ := s
  cases queue with
  | nil => simp [crawlStep]
  | cons url rest =>
    rcases h with h | h
    · simp at h
    · dsimp only at h
      simp [crawlStep, h]

lemma crawlLoop_terminal_fixed (fetch : Url → Option Page) (domain : String)
    (maxUrls : Nat) (fuel : Nat) {s : CrawlState}
    (h : s.queue = [] ∨ maxUrls ≤ s.results.length) :
    crawlLoop fetch domain maxUrls fuel s = s := by
  cases fuel with
  | zero => rfl
  | succ n =>
    simp only [crawlLoop, crawlStep_none_terminal fetch domain maxUrls h]

lemma respStep_savedCp (fetch : Url → Option RespPage) (domain : String) (maxUrls : Nat)
    {s s' : RespState} (h : respStep fetch domain maxUrls s = some s') :
    s'.savedCp = s.savedCp ∨ s'.savedCp = some (frontierOf s') := by
  obtain ⟨queue, seen, results, fetches, savedCp⟩ := s
  cases queue with
  | nil => simp [respStep] at h
  | cons url rest =>
    simp only [respStep] at h
    split at h
    · simp at h
    next hlen =>
      split at h
      · injection h with h
        subst h
        exact Or.inl rfl
      next hseen =>
        rcases hfetch : fetch url with _ | page <;> rw [hfetch] at h
        · injection h with h
          subst h
          exact Or.inl rfl
        · simp only at h
          injection h with h
          subst h
          refine Or.inr ?_
          dsimp only [frontierOf]

lemma respTrace_self_mem (fetch : Url → Option RespPage) (domain : String)
    (maxUrls : Nat) (fuel : Nat) (s : RespState) :
    s ∈ respTrace fetch domain maxUrls fuel s := by
  cases fuel with
  | zero => simp [respTrace]
  | succ n =>
    rcases hstep : respStep fetch domain maxUrls s with _ | s' <;>
      simp [respTrace, hstep]

lemma respLoop_savedCp (fetch : Url → Option RespPage) (domain : String) (maxUrls : Nat) :
    ∀ (fuel : Nat) (s : RespState) (c : RespCheckpoint),
      (respLoop fetch domain maxUrls fuel s).savedCp = some c →
      s.savedCp = some c ∨
        ∃ t ∈ respTrace fetch domain maxUrls fuel s, c = frontierOf t := by
  intro fuel
  induction fuel with
  | zero => intro s c h; exact Or.inl h
  | succ n ih =>
    intro s c h
    rcases hstep : respStep fetch domain maxUrls s with _ | s' <;>
      simp only [respLoop, hstep] at h
    · exact Or.inl h
    · rcases ih s' c h with h' | h'
      · rcases respStep_savedCp fetch domain maxUrls hstep with h2 | h2
        · exact Or.inl (h2 ▸ h')
        · refine Or.inr ⟨s', ?_, ?_⟩
          · simp only [respTrace, hstep, List.mem_cons]
            exact Or.inr (respTrace_self_mem fetch domain maxUrls n s')
          · rw [h2] at h'
            exact (Option.some.inj h').symm
      · rcases h' with ⟨t, ht, hc⟩
        refine Or.inr ⟨t, ?_, hc⟩
        simp only [respTrace, hstep, List.mem_cons]
        exact Or.inr ht

/-! ## Claim C4 -/

/-- Claim C4, counterexample.  In `Crawl_URL_with_response.py` the
state file is written only at the end of successfully fetched
iterations (the `finally` block is `pass`).  Crawling a single URL
whose fetch fails terminates by normal exhaustion with the URL marked
seen, yet no checkpoint is ever written, so the checkpoint does not
reflect the frontier state at termination. -/
theorem c4_counterexample :
    ((respLoop (fun _ => none) "d" 10 5
        ⟨[⟨"http", "d", "/"⟩], [], [], 0, none⟩).queue = []) ∧
    ((respLoop (fun _ => none) "d" 10 5
        ⟨[⟨"http", "d", "/"⟩], [], [], 0, none⟩).seen = [⟨"http", "d", "/"⟩]) ∧
    ((respLoop (fun _ => none) "d" 10 5
        ⟨[⟨"http", "d", "/"⟩], [], [], 0, none⟩).savedCp = none) :=
  ⟨by decide, by decide, by decide⟩

/-- Claim C4, amended.  `Crawl_URL.py` (and the selenium variant,
which shares the `finally` discipline) persists, on every termination
of the loop, exactly the termination-time frontier: the written
checkpoint carries the final queue and results, its seen set is the
final seen set with every result URL merged in, and it contains every
seen-marking made at any point of the run (in particular the in-flight
URL's).  `Crawl_URL_with_response.py`, by contrast, only guarantees
that any checkpoint on disk is the frontier of *some* state reached
during the run — per the counterexample, not necessarily the state at
termination. -/
theorem c4_checkpoint_at_termination :
    (∀ (fetch : Url → Option Page) (domain : String) (maxUrls fuel : Nat)
       (s : CrawlState),
      ((crawlRun fetch domain maxUrls fuel s).2.queue =
        (crawlLoop fetch domain maxUrls fuel s).queue) ∧
      ((crawlRun fetch domain maxUrls fuel s).2.results =
        (crawlLoop fetch domain maxUrls fuel s).results) ∧
      (∀ u, u ∈ (crawlRun fetch domain maxUrls fuel s).2.seen ↔
        (u ∈ (crawlLoop fetch domain maxUrls fuel s).seen ∨
          ∃ r ∈ (crawlLoop fetch domain maxUrls fuel s).results, r.url = u)) ∧
      (∀ t ∈ crawlTrace fetch domain maxUrls fuel s, ∀ u ∈ t.seen,
        u ∈ (crawlRun fetch domain maxUrls fuel s).2.seen)) ∧
    (∀ (fetch : Url → Option RespPage) (domain : String) (maxUrls fuel : Nat)
       (s : RespState),
      s.savedCp = none →
      ∀ c, (respLoop fetch domain maxUrls fuel s).savedCp = some c →
        ∃ t ∈ respTrace fetch domain maxUrls fuel s, c = frontierOf t) := by
  constructor
  · intro fetch domain maxUrls fuel s
    refine ⟨rfl, rfl, ?_, ?_⟩
    · intro u
      simp [crawlRun, checkpointOf, List.mem_append, List.mem_map, eq_comm]
    · intro t ht u hu
      have := crawlTrace_seen fetch domain maxUrls fuel s t ht u hu
      simp only [crawlRun, checkpointOf, List.mem_append]
      exact Or.inl this
  · intro fetch domain maxUrls fuel s hnone c h
    rcases respLoop_savedCp fetch domain maxUrls fuel s c h with h' | h'
    · rw [hnone] at h'
      cases h'
    · exact h'

/-- Claim C4, witness for the amended theorem: concrete instances of
both parts. -/
theorem c4_checkpoint_witness :
    ((⟨"http", "d", "/"⟩ : Url) ∈
      (crawlRun (fun _ => none) "d" 10 3 ⟨[⟨"http", "d", "/"⟩], [], [], 0⟩).2.seen) ∧
    (∃ t ∈ respTrace (fun _ => some ⟨"text/plain", "b", []⟩) "d" 10 3
        ⟨[⟨"http", "d", "/"⟩], [], [], 0, none⟩,
      (⟨[], [⟨"http", "d", "/"⟩],
        [⟨"d", ⟨"http", "d", "/"⟩, "text/plain", "b"⟩]⟩ : RespCheckpoint) =
        frontierOf t) :=
  ⟨(c4_checkpoint_at_termination.1 (fun _ => none) "d" 10 3
      ⟨[⟨"http", "d", "/"⟩], [], [], 0⟩).2.2.2
      ⟨[], [⟨"http", "d", "/"⟩], [], 1⟩ (by decide) ⟨"http", "d", "/"⟩ (by decide),
   c4_checkpoint_at_termination.2 (fun _ => some ⟨"text/plain", "b", []⟩) "d" 10 3
      ⟨[⟨"http", "d", "/"⟩], [], [], 0, none⟩ rfl
      ⟨[], [⟨"http", "d", "/"⟩], [⟨"d", ⟨"http", "d", "/"⟩, "text/plain", "b"⟩]⟩
      (by decide)⟩

/-! ## Claim C5 -/

/-- Claim C5, counterexample.  The claim's hypothesis — the restored
checkpoint's queue contains no URL already in seen — is not enough: a
checkpoint whose results already hold a record for a URL that is still
queued (and absent from seen) satisfies it, yet resuming
`Crawl_URL_with_response.py` from it appends a second record with the
same url (`results.append` has no duplicate check). -/
theorem c5_counterexample :
    (∀ u ∈ ([⟨"http", "d", "/"⟩] : List Url), u ∉ ([] : List Url)) ∧
    ¬ (((respLoop (fun _ => some ⟨"text/plain", "b", []⟩) "d" 10 5
          (respRestore ⟨[⟨"http", "d", "/"⟩], [],
            [⟨"d", ⟨"http", "d", "/"⟩, "text/plain", "b"⟩]⟩)).results.map
        RespRecord.url).Nodup) :=
  ⟨by decide, by decide⟩

/-- Claim C5, amended.  For every completed crawl that starts fresh,
or resumes from a checkpoint whose results contain no two entries with
identical url and whose every result URL is already in seen (as is the
case for every checkpoint the scripts themselves write), the final
results list contains no two entries with identical url — in both the
`Crawl_URL.py` and the `Crawl_URL_with_response.py` loop. -/
theorem c5_no_duplicate_results :
    (∀ (fetch : Url → Option Page) (domain : String) (maxUrls fuel : Nat)
       (s : CrawlState),
       (s.results.map PageRecord.url).Nodup → (∀ r ∈ s.results, r.url ∈ s.seen) →
       ((crawlLoop fetch domain maxUrls fuel s).results.map PageRecord.url).Nodup) ∧
    (∀ (fetch : Url → Option RespPage) (domain : String) (maxUrls fuel : Nat)
       (s : RespState),
       (s.results.map RespRecord.url).Nodup → (∀ r ∈ s.results, r.url ∈ s.seen) →
       ((respLoop fetch domain maxUrls fuel s).results.map RespRecord.url).Nodup) :=
  ⟨fun fetch domain maxUrls fuel s h1 h2 =>
    (crawlLoop_nodup fetch domain maxUrls fuel s h1 h2).1,
   fun fetch domain maxUrls fuel s h1 h2 =>
    (respLoop_nodup fetch domain maxUrls fuel s h1 h2).1⟩

/-- Claim C5, witness: fresh crawls of both variants. -/
theorem c5_no_duplicate_results_witness :
    ((crawlLoop (fun _ => some ⟨"text/plain", []⟩) "d" 3 3
        ⟨[⟨"http", "d", "/"⟩], [], [], 0⟩).results.map PageRecord.url).Nodup ∧
    ((respLoop (fun _ => some ⟨"text/plain", "b", []⟩) "d" 3 3
        ⟨[⟨"http", "d", "/"⟩], [], [], 0, none⟩).results.map RespRecord.url).Nodup :=
  ⟨c5_no_duplicate_results.1 (fun _ => some ⟨"text/plain", []⟩) "d" 3 3
      ⟨[⟨"http", "d", "/"⟩], [], [], 0⟩ (by decide) (by decide),
   c5_no_duplicate_results.2 (fun _ => some ⟨"text/plain", "b", []⟩) "d" 3 3
      ⟨[⟨"http", "d", "/"⟩], [], [], 0, none⟩ (by decide) (by decide)⟩

/-! ## Claim C6 -/

/-- Claim C6: in every crawl session with fixed domain — in the
`Crawl_URL.py` loop (whose enqueue filter `Crawl_URL_selenium.py`
shares) as well as in the `Crawl_URL_with_response.py` loop — a
hyperlink whose resolved URL has a host different from the session's
domain or a scheme outside http/https is never present in any queue
state beyond the session's starting queue (it is never enqueued),
and — when the starting queue itself is on-domain, as it is for a
fresh start from a URL of that domain — every record appended to
results during the session has a URL whose host equals the domain. -/
theorem c6_domain_containment :
    (∀ (fetch : Url → Option Page) (domain : String) (maxUrls fuel : Nat)
      (s : CrawlState),
      (∀ t ∈ crawlTrace fetch domain maxUrls fuel s, ∀ u ∈ t.queue,
        u ∈ s.queue ∨
          (u.netloc = domain ∧ (u.scheme = "http" ∨ u.scheme = "https"))) ∧
      ((∀ u ∈ s.queue, u.netloc = domain) →
        ∀ r ∈ (crawlLoop fetch domain maxUrls fuel s).results,
          r ∈ s.results ∨ r.url.netloc = domain)) ∧
    (∀ (fetch : Url → Option RespPage) (domain : String) (maxUrls fuel : Nat)
      (s : RespState),
      (∀ t ∈ respTrace fetch domain maxUrls fuel s, ∀ u ∈ t.queue,
        u ∈ s.queue ∨
          (u.netloc = domain ∧ (u.scheme = "http" ∨ u.scheme = "https"))) ∧
      ((∀ u ∈ s.queue, u.netloc = domain) →
        ∀ r ∈ (respLoop fetch domain maxUrls fuel s).results,
          r ∈ s.results ∨ r.url.netloc = domain)) :=
  ⟨fun fetch domain maxUrls fuel s =>
    ⟨crawlTrace_queue fetch domain maxUrls fuel s,
     fun hq => crawlLoop_domain fetch domain maxUrls fuel s hq⟩,
   fun fetch domain maxUrls fuel s =>
    ⟨respTrace_queue fetch domain maxUrls fuel s,
     fun hq => respLoop_domain fetch domain maxUrls fuel s hq⟩⟩

/-- Claim C6, witness: in both loops, a page of domain `d` linking to
an on-domain URL and an off-domain URL; the queue state after the
first iteration holds only URLs that are either the start URL or
on-domain with an http(s) scheme, and every collected record is on
`d`. -/
theorem c6_domain_containment_witness :
    ((⟨"http", "d", "/a"⟩ : Url) ∈ ([⟨"http", "d", "/"⟩] : List Url) ∨
      ((⟨"http", "d", "/a"⟩ : Url).netloc = "d" ∧
        ((⟨"http", "d", "/a"⟩ : Url).scheme = "http" ∨
          (⟨"http", "d", "/a"⟩ : Url).scheme = "https"))) ∧
    ((⟨"d", ⟨"http", "d", "/a"⟩, "text/plain"⟩ : PageRecord) ∈
        ([] : List PageRecord) ∨
      (⟨"d", ⟨"http", "d", "/a"⟩, "text/plain"⟩ : PageRecord).url.netloc = "d") ∧
    ((⟨"http", "d", "/a"⟩ : Url) ∈ ([⟨"http", "d", "/"⟩] : List Url) ∨
      ((⟨"http", "d", "/a"⟩ : Url).netloc = "d" ∧
        ((⟨"http", "d", "/a"⟩ : Url).scheme = "http" ∨
          (⟨"http", "d", "/a"⟩ : Url).scheme = "https"))) ∧
    ((⟨"d", ⟨"http", "d", "/a"⟩, "text/plain", "b"⟩ : RespRecord) ∈
        ([] : List RespRecord) ∨
      (⟨"d", ⟨"http", "d", "/a"⟩, "text/plain", "b"⟩ : RespRecord).url.netloc = "d") :=
  ⟨(c6_domain_containment.1
      (fun v => if v = ⟨"http", "d", "/"⟩ then
        some ⟨"text/html", [⟨"http", "d", "/a"⟩, ⟨"http", "other", "/x"⟩]⟩
       else some ⟨"text/plain", []⟩) "d" 10 5 ⟨[⟨"http", "d", "/"⟩], [], [], 0⟩).1
      ⟨[⟨"http", "d", "/a"⟩], [⟨"http", "d", "/"⟩],
        [⟨"d", ⟨"http", "d", "/"⟩, "text/html"⟩], 1⟩ (by decide)
      ⟨"http", "d", "/a"⟩ (by decide),
   (c6_domain_containment.1
      (fun v => if v = ⟨"http", "d", "/"⟩ then
        some ⟨"text/html", [⟨"http", "d", "/a"⟩, ⟨"http", "other", "/x"⟩]⟩
       else some ⟨"text/plain", []⟩) "d" 10 5 ⟨[⟨"http", "d", "/"⟩], [], [], 0⟩).2
      (by decide) ⟨"d", ⟨"http", "d", "/a"⟩, "text/plain"⟩ (by decide),
   (c6_domain_containment.2
      (fun v => if v = ⟨"http", "d", "/"⟩ then
        some ⟨"text/html", "b", [⟨"http", "d", "/a"⟩, ⟨"http", "other", "/x"⟩]⟩
       else some ⟨"text/plain", "b", []⟩) "d" 10 5
      ⟨[⟨"http", "d", "/"⟩], [], [], 0, none⟩).1
      ⟨[⟨"http", "d", "/a"⟩], [⟨"http", "d", "/"⟩],
        [⟨"d", ⟨"http", "d", "/"⟩, "text/html", "b"⟩], 1,
        some ⟨[⟨"http", "d", "/a"⟩], [⟨"http", "d", "/"⟩],
          [⟨"d", ⟨"http", "d", "/"⟩, "text/html", "b"⟩]⟩⟩ (by decide)
      ⟨"http", "d", "/a"⟩ (by decide),
   (c6_domain_containment.2
      (fun v => if v = ⟨"http", "d", "/"⟩ then
        some ⟨"text/html", "b", [⟨"http", "d", "/a"⟩, ⟨"http", "other", "/x"⟩]⟩
       else some ⟨"text/plain", "b", []⟩) "d" 10 5
      ⟨[⟨"http", "d", "/"⟩], [], [], 0, none⟩).2
      (by decide) ⟨"d", ⟨"http", "d", "/a"⟩, "text/plain", "b"⟩ (by decide)⟩

/-! ## Claim C7 -/

/-- Claim C7, counterexample.  In `Crawl_URL_with_response.py` the
checkpoint is written only on successful iterations, so running to
exhaustion where the *last* processed URL fails to fetch leaves a
stale checkpoint whose queue still holds that URL; re-running from it
performs a fetch again (1 fetch, not 0). -/
theorem c7_counterexample :
    ((respLoop
        (fun v => if v = ⟨"http", "d", "/1"⟩ then
          some ⟨"text/html", "b", [⟨"http", "d", "/2"⟩]⟩ else none)
        "d" 10 5 ⟨[⟨"http", "d", "/1"⟩], [], [], 0, none⟩).queue = []) ∧
    ((respLoop
        (fun v => if v = ⟨"http", "d", "/1"⟩ then
          some ⟨"text/html", "b", [⟨"http", "d", "/2"⟩]⟩ else none)
        "d" 10 5 ⟨[⟨"http", "d", "/1"⟩], [], [], 0, none⟩).savedCp =
      some ⟨[⟨"http", "d", "/2"⟩], [⟨"http", "d", "/1"⟩],
        [⟨"d", ⟨"http", "d", "/1"⟩, "text/html", "b"⟩]⟩) ∧
    ((respLoop
        (fun v => if v = ⟨"http", "d", "/1"⟩ then
          some ⟨"text/html", "b", [⟨"http", "d", "/2"⟩]⟩ else none)
        "d" 10 5
        (respRestore ⟨[⟨"http", "d", "/2"⟩], [⟨"http", "d", "/1"⟩],
          [⟨"d", ⟨"http", "d", "/1"⟩, "text/html", "b"⟩]⟩)).fetches = 1) :=
  ⟨by decide, by decide, by decide⟩

/-- Claim C7, amended.  For `Crawl_URL.py` (whose `finally` block
persists the termination state, as does the selenium variant): if a
run reaches a terminal state — queue exhausted or budget reached —
then re-running with the written checkpoint, any fuel and the same
budget changes nothing and performs zero fetches. -/
theorem c7_idempotent_resume :
    ∀ (fetch : Url → Option Page) (domain : String)
      (maxUrls fuel fuel' : Nat) (s : CrawlState),
      ((crawlLoop fetch domain maxUrls fuel s).queue = [] ∨
        maxUrls ≤ (crawlLoop fetch domain maxUrls fuel s).results.length) →
      crawlLoop fetch domain maxUrls fuel'
          (restore (checkpointOf (crawlLoop fetch domain maxUrls fuel s))) =
        restore (checkpointOf (crawlLoop fetch domain maxUrls fuel s)) ∧
      (crawlLoop fetch domain maxUrls fuel'
          (restore (checkpointOf (crawlLoop fetch domain maxUrls fuel s)))).fetches
        = 0 := by
  intro fetch domain maxUrls fuel fuel' s h
  have hfix := crawlLoop_terminal_fixed fetch domain maxUrls fuel'
    (s := restore (checkpointOf (crawlLoop fetch domain maxUrls fuel s))) h
  exact ⟨hfix, by rw [hfix]; rfl⟩

/-- Claim C7, witness: a crawl that exhausts its single-URL queue,
then resumes from its own checkpoint. -/
theorem c7_idempotent_resume_witness :
    crawlLoop (fun _ => none) "d" 5 2
        (restore (checkpointOf (crawlLoop (fun _ => none) "d" 5 3
          ⟨[⟨"http", "d", "/"⟩], [], [], 0⟩))) =
      restore (checkpointOf (crawlLoop (fun _ => none) "d" 5 3
        ⟨[⟨"http", "d", "/"⟩], [], [], 0⟩)) ∧
    (crawlLoop (fun _ => none) "d" 5 2
        (restore (checkpointOf (crawlLoop (fun _ => none) "d" 5 3
          ⟨[⟨"http", "d", "/"⟩], [], [], 0⟩)))).fetches = 0 :=
  c7_idempotent_resume (fun _ => none) "d" 5 3 2
    ⟨[⟨"http", "d", "/"⟩], [], [], 0⟩ (by decide)

/-! ## Claim C8 -/

/-- Claim C8: at every loop-boundary point of a crawl that starts with
`len(results) <= max_urls`, the invariant `len(results) <= max_urls`
holds — the guard checks the results count before each iteration and
an iteration appends at most one record; shown for both the
`Crawl_URL.py` loop and the `Crawl_URL_with_response.py` loop. -/
theorem c8_budget_respected :
    (∀ (fetch : Url → Option Page) (domain : String) (maxUrls fuel : Nat)
       (s : CrawlState), s.results.length ≤ maxUrls →
       ∀ t ∈ crawlTrace fetch domain maxUrls fuel s,
         t.results.length ≤ maxUrls) ∧
    (∀ (fetch : Url → Option RespPage) (domain : String) (maxUrls fuel : Nat)
       (s : RespState), s.results.length ≤ maxUrls →
       ∀ t ∈ respTrace fetch domain maxUrls fuel s,
         t.results.length ≤ maxUrls) :=
  ⟨fun fetch domain maxUrls fuel s h => crawlTrace_budget fetch domain maxUrls fuel s h,
   fun fetch domain maxUrls fuel s h => respTrace_budget fetch domain maxUrls fuel s h⟩

/-- Claim C8, witness: a crawl with budget 1 over a two-URL frontier
never holds more than one result at any point of its trace. -/
theorem c8_budget_respected_witness :
    (crawlLoop (fun _ => some ⟨"text/plain", []⟩) "d" 1 3
        ⟨[⟨"http", "d", "/1"⟩, ⟨"http", "d", "/2"⟩], [], [], 0⟩).results.length ≤ 1 :=
  c8_budget_respected.1 (fun _ => some ⟨"text/plain", []⟩) "d" 1 3
    ⟨[⟨"http", "d", "/1"⟩, ⟨"http", "d", "/2"⟩], [], [], 0⟩ (by decide)
    (crawlLoop (fun _ => some ⟨"text/plain", []⟩) "d" 1 3
      ⟨[⟨"http", "d", "/1"⟩, ⟨"http", "d", "/2"⟩], [], [], 0⟩) (by decide)

/-! ## Helper lemmas about the QA accumulation loops -/

lemma wsFilter_source (target : String) (existing : List (String × String)) :
    ∀ (l : List WsPair) (processed : List (String × String)) (p : WsPair),
      p ∈ wsFilter target existing l processed → p.source_url = target := by
  intro l
  induction l with
  | nil => intro processed p h; simp [wsFilter] at h
  | cons qa rest ih =>
    intro processed p h
    simp only [wsFilter] at h
    split at h
    · exact ih _ _ h
    · split at h
      next hqt =>
        split at h
        · exact ih _ _ h
        · rcases List.mem_cons.mp h with h' | h'
          · rw [h']; exact hqt
          · exact ih _ _ h'
      · exact ih _ _ h

lemma collectQA_mem (target : String) (sched : Nat → List WsPair) :
    ∀ (n attempt : Nat) (file : List WsPair) (p : WsPair),
      p ∈ collectQA target sched n attempt file →
      p ∈ file ∨ p.source_url = target := by
  intro n
  induction n with
  | zero => intro attempt file p h; exact Or.inl h
  | succ m ih =>
    intro attempt file p h
    simp only [collectQA] at h
    split at h
    · exact Or.inl h
    · rcases ih _ _ _ h with h' | h'
      · rcases List.mem_append.mp h' with h2 | h2
        · exact Or.inl h2
        · exact Or.inr (wsFilter_source target _ _ _ _ h2)
      · exact Or.inr h'

/-! ## Claim C1 -/

/-- Claim C1, counterexample.  In `WebSearch.py`'s `collect_qa`, a
generated pair whose `source_url` differs from the requested URL *is
dropped* (filtered out before persistence), not silently corrected:
with the agent returning exactly one such pair, nothing at all is
persisted, contradicting "never causing the pair to be dropped". -/
theorem c1_counterexample :
    collectQA "https://s/2"
      (fun _ => [⟨"q1", "a1", "https://wrong"⟩]) 5 0 [] = [] ∧
    (⟨"q1", "a1", "https://wrong"⟩ : WsPair).source_url ≠ "https://s/2" :=
  ⟨by decide, by decide⟩

/-- Claim C1, amended.  Every pair persisted by any of the three
generators carries the requested source identifier: in
`Create_QA_from_jsonl.py`'s `generate_qa_for_text` and
`Create_QA_from_jsonl_alt_fixed.py`'s `generate_basic_qa` a mismatched
`source_url` is silently corrected, while in `WebSearch.py`'s
`collect_qa` every pair surviving the filter (and hence every pair
appended to the file) matches the requested URL — but there a
mismatched pair is dropped rather than corrected. -/
theorem c1_source_url_correction :
    (∀ (url persona : String) (items : List RawItem) (p : JQAPair),
      p ∈ generate_qa_for_text url persona items → p.source_url = url) ∧
    (∀ (src : String) (raw : Option BasicQA) (qa : BasicQA),
      generate_basic_qa src raw = some qa → qa.source_url = src) ∧
    (∀ (target : String) (sched : Nat → List WsPair) (n attempt : Nat)
      (file : List WsPair) (p : WsPair),
      p ∈ collectQA target sched n attempt file →
      p ∈ file ∨ p.source_url = target) := by
  refine ⟨?_, ?_, fun target sched n attempt file p h =>
    collectQA_mem target sched n attempt file p h⟩
  · intro url persona items p h
    simp only [generate_qa_for_text, List.mem_filterMap] at h
    obtain ⟨it, _, heq⟩ := h
    rcases hq : it.question with _ | q <;> rcases ha : it.answer with _ | a <;>
      rw [hq, ha] at heq <;> simp only [Option.some.injEq] at heq
    · cases heq
    · cases heq
    · cases heq
    · rw [← heq]
  · intro src raw qa h
    cases raw with
    | none => simp [generate_basic_qa] at h
    | some b =>
      simp only [generate_basic_qa, Option.map_some', Option.some.injEq] at h
      rw [← h]
      unfold fixSourceUrl
      split
      next hc => exact hc
      next hc => rfl

/-- Claim C1, witness: concrete instances of all three parts of the
amended theorem. -/
theorem c1_source_url_correction_witness :
    (JQAPair.source_url ⟨"q", "a", "u", "per"⟩ = "u") ∧
    (BasicQA.source_url ⟨"q", "a", "s"⟩ = "s") ∧
    ((⟨"q2", "a2", "t"⟩ : WsPair) ∈ ([] : List WsPair) ∨
      WsPair.source_url ⟨"q2", "a2", "t"⟩ = "t") :=
  ⟨c1_source_url_correction.1 "u" "per" [⟨some "q", some "a", some "w"⟩]
      ⟨"q", "a", "u", "per"⟩ (by decide),
   c1_source_url_correction.2.1 "s" (some ⟨"q", "a", "w"⟩) ⟨"q", "a", "s"⟩ (by decide),
   c1_source_url_correction.2.2 "t" (fun _ => [⟨"q2", "a2", "t"⟩]) 1 0 []
      ⟨"q2", "a2", "t"⟩ (by decide)⟩

/-! ## Claim C2 -/

lemma seedTuples_eq (file0 : List JQAPair)
    (h : ∀ p ∈ file0, p.question ≠ "" ∧ p.answer ≠ "") :
    seedTuples file0 = file0.map qaKey := by
  induction file0 with
  | nil => rfl
  | cons p rest ih =>
    have hp := h p (List.mem_cons_self _ _)
    simp only [seedTuples, List.filterMap_cons, List.map_cons]
    rw [if_pos hp]
    have ih' := ih fun q hq => h q (List.mem_cons_of_mem _ hq)
    simp only [seedTuples] at ih'
    rw [ih']
    rfl

lemma writePairs_inv (maxQa : Nat) (F : List (String × String)) :
    ∀ (pairs : List JQAPair) (st : QAState),
      (∀ p ∈ pairs, p.question ≠ "" ∧ p.answer ≠ "") →
      (F ++ st.fileNew.map qaKey).Nodup →
      (∀ t ∈ F ++ st.fileNew.map qaKey, t ∈ st.existing) →
      (∀ p ∈ st.fileNew, p.question ≠ "" ∧ p.answer ≠ "") →
      ((F ++ (writePairs maxQa pairs st).fileNew.map qaKey).Nodup) ∧
      (∀ t ∈ F ++ (writePairs maxQa pairs st).fileNew.map qaKey,
        t ∈ (writePairs maxQa pairs st).existing) ∧
      (∀ p ∈ (writePairs maxQa pairs st).fileNew,
        p.question ≠ "" ∧ p.answer ≠ "") := by
  intro pairs
  induction pairs with
  | nil => intro st _ h1 h2 h3; exact ⟨h1, h2, h3⟩
  | cons qa rest ih =>
    intro st hpairs h1 h2 h3
    simp only [writePairs]
    split
    · exact ⟨h1, h2, h3⟩
    · split
      · exact ih st (fun p hp => hpairs p (List.mem_cons_of_mem _ hp)) h1 h2 h3
      next hnot =>
        refine ih _ (fun p hp => hpairs p (List.mem_cons_of_mem _ hp)) ?_ ?_ ?_
        · dsimp only
          have hkey : qaKey qa ∉ F ++ st.fileNew.map qaKey := fun hmem => hnot (h2 _ hmem)
          simp only [List.map_append, List.map_cons, List.map_nil]
          rw [← List.append_assoc, List.nodup_append]
          refine ⟨h1, List.nodup_singleton _, ?_⟩
          intro a ha hb
          have hb' : a = qaKey qa := by simpa using hb
          exact hkey (hb' ▸ ha)
        · dsimp only
          intro t ht
          simp only [List.map_append, List.map_cons, List.map_nil] at ht
          rw [← List.append_assoc] at ht
          rcases List.mem_append.mp ht with ht' | ht'
          · exact List.mem_cons_of_mem _ (h2 t ht')
          · have : t = qaKey qa := by simpa using ht'
            rw [this]
            exact List.mem_cons_self _ _
        · dsimp only
          intro p hp
          rcases List.mem_append.mp hp with hp' | hp'
          · exact h3 p hp'
          · have : p = qa := by simpa using hp'
            rw [this]
            exact hpairs qa (List.mem_cons_self _ _)

lemma qaLoop_inv (maxQa : Nat) (sched : Nat → List JQAPair)
    (F : List (String × String))
    (hs : ∀ i, ∀ p ∈ sched i, p.question ≠ "" ∧ p.answer ≠ "") :
    ∀ (remaining attempt : Nat) (st : QAState),
      (F ++ st.fileNew.map qaKey).Nodup →
      (∀ t ∈ F ++ st.fileNew.map qaKey, t ∈ st.existing) →
      (∀ p ∈ st.fileNew, p.question ≠ "" ∧ p.answer ≠ "") →
      ((F ++ (qaLoop maxQa sched remaining attempt st).fileNew.map qaKey).Nodup) ∧
      (∀ p ∈ (qaLoop maxQa sched remaining attempt st).fileNew,
        p.question ≠ "" ∧ p.answer ≠ "") := by
  intro remaining
  induction remaining with
  | zero => intro attempt st h1 _ h3; exact ⟨h1, h3⟩
  | succ m ih =>
    intro attempt st h1 h2 h3
    simp only [qaLoop]
    split
    · exact ⟨h1, h3⟩
    · split
      · split
        · exact ⟨h1, h3⟩
        · exact ih (attempt + 1) _ h1 h2 h3
      · obtain ⟨h1', h2', h3'⟩ :=
          writePairs_inv maxQa F (sched attempt)
            ⟨st.existing, st.fileNew, st.display, st.count, st.calls + 1⟩
            (hs attempt) h1 h2 h3
        exact ih (attempt + 1) _ h1' h2' h3'

lemma fileAfterRun_inv (url : String) (sched : Nat → List JQAPair) (maxQa : Nat)
    (file0 : List JQAPair)
    (h0 : (file0.map qaKey).Nodup)
    (h0' : ∀ p ∈ file0, p.question ≠ "" ∧ p.answer ≠ "")
    (hs : ∀ i, ∀ p ∈ sched i, p.question ≠ "" ∧ p.answer ≠ "") :
    ((fileAfterRun url sched maxQa file0).map qaKey).Nodup ∧
    (∀ p ∈ fileAfterRun url sched maxQa file0,
      p.question ≠ "" ∧ p.answer ≠ "") := by
  have hinit2 : ∀ t ∈ file0.map qaKey ++ ([] : List JQAPair).map qaKey,
      t ∈ seedTuples file0 := by
    intro t ht
    simp only [List.map_nil, List.append_nil] at ht
    rw [seedTuples_eq file0 h0']
    exact ht
  have hinit1 : (file0.map qaKey ++ ([] : List JQAPair).map qaKey).Nodup := by
    simpa using h0
  obtain ⟨h1, h3⟩ :=
    qaLoop_inv maxQa sched (file0.map qaKey) hs (maxAttemptsFor maxQa) 0
      ⟨seedTuples file0, [], seedDisplay url file0, 0, 0⟩ hinit1 hinit2
      (by intro p hp; simp at hp)
  constructor
  · simpa only [fileAfterRun, processUrlContent, List.map_append] using h1
  · intro p hp
    rcases List.mem_append.mp hp with hp' | hp'
    · exact h0' p hp'
    · exact h3 p hp'

/-- Claim C2, counterexample.  `process_url_content` seeds its dedup
ledger only from file lines whose question *and* answer are truthy
(`if q and a`).  A pair with an empty question is therefore written in
one run, not seeded in the next run sharing the same output file, and
written again: the final file holds two pairs with the identical
`(question, answer)` tuple `("", "a")`. -/
theorem c2_counterexample :
    fileAfterRuns "u" 50 []
        [fun n => if n = 0 then [⟨"", "a", "u", "per"⟩] else [],
         fun n => if n = 0 then [⟨"", "a", "u", "per"⟩] else []] =
      [⟨"", "a", "u", "per"⟩, ⟨"", "a", "u", "per"⟩] ∧
    ¬ ((fileAfterRuns "u" 50 []
        [fun n => if n = 0 then [⟨"", "a", "u", "per"⟩] else [],
         fun n => if n = 0 then [⟨"", "a", "u", "per"⟩] else []]).map qaKey).Nodup :=
  ⟨by decide, by decide⟩

lemma fileAfterRuns_nodup (url : String) (maxQa : Nat) :
    ∀ (runs : List (Nat → List JQAPair)) (file0 : List JQAPair),
      (file0.map qaKey).Nodup →
      (∀ p ∈ file0, p.question ≠ "" ∧ p.answer ≠ "") →
      (∀ sched ∈ runs, ∀ i, ∀ p ∈ sched i, p.question ≠ "" ∧ p.answer ≠ "") →
      ((fileAfterRuns url maxQa file0 runs).map qaKey).Nodup := by
  intro runs
  induction runs with
  | nil => intro file0 h0 _ _; exact h0
  | cons sched rest ih =>
    intro file0 h0 h0' hs
    simp only [fileAfterRuns]
    obtain ⟨h1, h2⟩ := fileAfterRun_inv url sched maxQa file0 h0 h0'
      (hs sched (List.mem_cons_self _ _))
    exact ih (fileAfterRun url sched maxQa file0) h1 h2
      (fun s hsmem => hs s (List.mem_cons_of_mem _ hsmem))

lemma seStep_nodup (genO : Nat → Option FullQA) (writeOk : Nat → Bool)
    (attempt : Nat) (st : SEState) (F : List (String × String))
    (h1 : (F ++ st.fileNew.map fullKey).Nodup)
    (h2 : ∀ t ∈ F ++ st.fileNew.map fullKey, t ∈ st.globalSet) :
    ((F ++ (seStep genO writeOk attempt st).fileNew.map fullKey).Nodup) ∧
    (∀ t ∈ F ++ (seStep genO writeOk attempt st).fileNew.map fullKey,
      t ∈ (seStep genO writeOk attempt st).globalSet) := by
  rcases hg : genO attempt with _ | qa <;> simp only [seStep, hg]
  · exact ⟨h1, h2⟩
  · split
    · exact ⟨h1, h2⟩
    next hnot =>
      split
      · constructor
        · have hkey : fullKey qa ∉ F ++ st.fileNew.map fullKey :=
            fun hmem => hnot (h2 _ hmem)
          simp only [List.map_append, List.map_cons, List.map_nil]
          rw [← List.append_assoc, List.nodup_append]
          refine ⟨h1, List.nodup_singleton _, ?_⟩
          intro a ha hb
          have hb2 : a = fullKey qa := by simpa using hb
          exact hkey (hb2 ▸ ha)
        · intro t ht
          simp only [List.map_append, List.map_cons, List.map_nil] at ht
          rw [← List.append_assoc] at ht
          rcases List.mem_append.mp ht with ht2 | ht2
          · exact List.mem_cons_of_mem _ (h2 t ht2)
          · have ht3 : t = fullKey qa := by simpa using ht2
            rw [ht3]
            exact List.mem_cons_self _ _
      · exact ⟨h1, fun t ht => List.mem_cons_of_mem _ (h2 t ht)⟩

lemma seLoop_nodup (genO : Nat → Option FullQA) (writeOk : Nat → Bool) :
    ∀ (n attempt : Nat) (st : SEState) (F : List (String × String)),
      (F ++ st.fileNew.map fullKey).Nodup →
      (∀ t ∈ F ++ st.fileNew.map fullKey, t ∈ st.globalSet) →
      ((F ++ (seLoop genO writeOk n attempt st).fileNew.map fullKey).Nodup) ∧
      (∀ t ∈ F ++ (seLoop genO writeOk n attempt st).fileNew.map fullKey,
        t ∈ (seLoop genO writeOk n attempt st).globalSet) := by
  intro n
  induction n with
  | zero => intro attempt st F h1 h2; exact ⟨h1, h2⟩
  | succ m ih =>
    intro attempt st F h1 h2
    simp only [seLoop]
    obtain ⟨h1', h2'⟩ := seStep_nodup genO writeOk attempt st F h1 h2
    exact ih (attempt + 1) _ F h1' h2'

lemma seProcessEntries_nodup :
    ∀ (entries : List (String × (Nat → Option FullQA) × (Nat → Bool) × Nat))
      (gset : List (String × String)) (file : List FullQA),
      (file.map fullKey).Nodup →
      (∀ t ∈ file.map fullKey, t ∈ gset) →
      (((seProcessEntries entries gset file).2.map fullKey).Nodup) ∧
      (∀ t ∈ (seProcessEntries entries gset file).2.map fullKey,
        t ∈ (seProcessEntries entries gset file).1) := by
  intro entries
  induction entries with
  | nil => intro gset file h1 h2; exact ⟨h1, h2⟩
  | cons e rest ih =>
    obtain ⟨sid, genO, writeOk, maxQ⟩ := e
    intro gset file h1 h2
    simp only [seProcessEntries]
    obtain ⟨h1', h2'⟩ := seLoop_nodup genO writeOk maxQ 0
      ⟨gset, [], collect_existing_qa_for_source sid file, 0, 0⟩ (file.map fullKey)
      (by simpa using h1)
      (by
        intro t ht
        simp only [List.map_nil, List.append_nil] at ht
        exact h2 t ht)
    refine ih _ _ ?_ ?_
    · simpa [List.map_append] using h1'
    · intro t ht
      rw [List.map_append] at ht
      exact h2' t ht

lemma seParallelRuns_nodup :
    ∀ (runs : List (List (String × (Nat → Option FullQA) × (Nat → Bool) × Nat)))
      (file0 : List FullQA),
      (file0.map fullKey).Nodup → ((seParallelRuns file0 runs).map fullKey).Nodup := by
  intro runs
  induction runs with
  | nil => intro file0 h0; exact h0
  | cons run rest ih =>
    intro file0 h0
    simp only [seParallelRuns]
    exact ih (seParallelRun run file0)
      (seProcessEntries_nodup run (seSeed file0) file0 h0 (fun t ht => ht)).1

/-- Claim C2, amended.  In `Create_QA_from_jsonl.py`'s
`process_url_content`, no two pairs written across an arbitrary
sequence of runs sharing the output file share an identical
`(question, answer)` tuple *provided* every pair involved has a
non-empty question and a non-empty answer — its seeding skips lines
with empty (falsy) fields, which is what the counterexample exploits.
In `Create_QA_from_jsonl_alt_fixed.py`
(`process_jsonl_parallel_entries` / `process_single_entry`) the
seeding scans every line unconditionally and the check-and-insert on
the shared ledger precedes every append, so the dedup property holds
as claimed, with no proviso, across arbitrary entry sequences, write
failures and process restarts. -/
theorem c2_qa_dedup :
    (∀ (url : String) (maxQa : Nat) (runs : List (Nat → List JQAPair))
      (file0 : List JQAPair),
      (file0.map qaKey).Nodup →
      (∀ p ∈ file0, p.question ≠ "" ∧ p.answer ≠ "") →
      (∀ sched ∈ runs, ∀ i, ∀ p ∈ sched i, p.question ≠ "" ∧ p.answer ≠ "") →
      ((fileAfterRuns url maxQa file0 runs).map qaKey).Nodup) ∧
    (∀ (runs : List (List (String × (Nat → Option FullQA) × (Nat → Bool) × Nat)))
      (file0 : List FullQA),
      (file0.map fullKey).Nodup →
      ((seParallelRuns file0 runs).map fullKey).Nodup) :=
  ⟨fun url maxQa runs file0 h0 h0' hs =>
    fileAfterRuns_nodup url maxQa runs file0 h0 h0' hs,
   fun runs file0 h0 => seParallelRuns_nodup runs file0 h0⟩

/-- Claim C2, witness: a two-restart sequence over an initially empty
file for each variant, with a generator proposing the same pair in
every attempt (an empty-question pair is allowed in the alt variant);
the final files are duplicate-free. -/
theorem c2_qa_dedup_witness :
    ((fileAfterRuns "u" 1 []
        [fun _ => [⟨"q1", "a1", "u", "per"⟩],
         fun _ => [⟨"q1", "a1", "u", "per"⟩]]).map qaKey).Nodup ∧
    ((seParallelRuns []
        [[("u", fun _ => some ⟨"", "a1", "u", "per", "cat", [], none, none, none⟩,
           fun _ => true, 2)],
         [("u", fun _ => some ⟨"", "a1", "u", "per", "cat", [], none, none, none⟩,
           fun _ => true, 2)]]).map fullKey).Nodup :=
  ⟨c2_qa_dedup.1 "u" 1
    [fun _ => [⟨"q1", "a1", "u", "per"⟩], fun _ => [⟨"q1", "a1", "u", "per"⟩]]
    [] (by decide) (by decide)
    (by
      intro sched hsched i p hp
      rcases List.mem_cons.mp hsched with h | h
      · subst h
        have hp1 : p = ⟨"q1", "a1", "u", "per"⟩ := by simpa using hp
        rw [hp1]
        exact ⟨by decide, by decide⟩
      · rcases List.mem_cons.mp h with h' | h'
        · subst h'
          have hp1 : p = ⟨"q1", "a1", "u", "per"⟩ := by simpa using hp
          rw [hp1]
          exact ⟨by decide, by decide⟩
        · exact absurd h' (List.not_mem_nil sched)),
   c2_qa_dedup.2
    [[("u", fun _ => some ⟨"", "a1", "u", "per", "cat", [], none, none, none⟩,
       fun _ => true, 2)],
     [("u", fun _ => some ⟨"", "a1", "u", "per", "cat", [], none, none, none⟩,
       fun _ => true, 2)]] [] (by decide)⟩

/-! ## Claim C3 -/

lemma specCalls_allEmpty (T : Nat) :
    ∀ (r attempt consec : Nat), consec ≤ T →
      specConsecutiveEmptyCalls T (fun _ => []) r attempt consec =
        min (T + 1 - consec) r := by
  intro r
  induction r with
  | zero => intro attempt consec _; simp [specConsecutiveEmptyCalls]
  | succ m ih =>
    intro attempt consec h
    simp only [specConsecutiveEmptyCalls]
    split
    · split
      next hT =>
        rw [Nat.min_def]
        split <;> omega
      next hT =>
        have hc : consec + 1 ≤ T := Nat.not_lt.mp hT
        rw [ih (attempt + 1) (consec + 1) hc, Nat.min_def, Nat.min_def]
        by_cases h1 : T + 1 - (consec + 1) ≤ m
        · rw [if_pos h1]
          by_cases h2 : T + 1 - consec ≤ m + 1
          · rw [if_pos h2]; omega
          · rw [if_neg h2]; omega
        · rw [if_neg h1]
          by_cases h2 : T + 1 - consec ≤ m + 1
          · rw [if_pos h2]; omega
          · rw [if_neg h2]; omega
    · next hfalse => exact absurd trivial hfalse

lemma seStep_calls (genO : Nat → Option FullQA) (writeOk : Nat → Bool)
    (attempt : Nat) (st : SEState) :
    (seStep genO writeOk attempt st).calls = st.calls + 1 := by
  rcases hg : genO attempt with _ | qa <;> simp only [seStep, hg]
  split
  · rfl
  · split <;> rfl

lemma seLoop_calls (genO : Nat → Option FullQA) (writeOk : Nat → Bool) :
    ∀ (n attempt : Nat) (st : SEState),
      (seLoop genO writeOk n attempt st).calls = st.calls + n := by
  intro n
  induction n with
  | zero => intro attempt st; rfl
  | succ m ih =>
    intro attempt st
    simp only [seLoop]
    rw [ih (attempt + 1) (seStep genO writeOk attempt st),
      seStep_calls genO writeOk attempt st]
    omega

/-- Claim C3, counterexample.  The per-source loop of
`Create_QA_from_jsonl.py` has no consecutive-empty counter: no
threshold `T` makes its number of generator calls match the
consecutive-empty-counter semantics the claim describes
(`specConsecutiveEmptyCalls`) on every generator behaviour.  With the
default cap of 50 (29 attempts), an all-empty generator is called 18
times — so `T` would have to be 17 — yet a generator that is empty
only on attempt 17 (after 17 straight non-empty attempts) also aborts
at 18 calls, where a 17-consecutive-empties threshold would have run
all 29. -/
theorem c3_counterexample :
    ¬ ∃ T : Nat, ∀ sched : Nat → List JQAPair,
        (processUrlContent "u" sched 50 []).calls =
          specConsecutiveEmptyCalls T sched (maxAttemptsFor 50) 0 0 := by
  rintro ⟨T, h⟩
  have hA := h (fun _ => [])
  have hcodeA : (processUrlContent "u" (fun _ => []) 50 []).calls = 18 := by decide
  rw [hcodeA, specCalls_allEmpty T (maxAttemptsFor 50) 0 0 (Nat.zero_le T)] at hA
  have hT : T = 17 := by
    have h29 : maxAttemptsFor 50 = 29 := by decide
    rw [h29, Nat.min_def] at hA
    split at hA <;> omega
  subst hT
  have hB := h (fun n => if n = 17 then [] else [⟨"q", "a", "u", "per"⟩])
  have hcodeB : (processUrlContent "u"
      (fun n => if n = 17 then [] else [⟨"q", "a", "u", "per"⟩]) 50 []).calls = 18 := by
    decide
  have hspecB : specConsecutiveEmptyCalls 17
      (fun n => if n = 17 then [] else [⟨"q", "a", "u", "per"⟩])
      (maxAttemptsFor 50) 0 0 = 29 := by decide
  rw [hcodeB, hspecB] at hB
  exact absurd hB (by decide)

/-- Claim C3, amended.  In `Create_QA_from_jsonl.py` an empty
generator result aborts the source's processing exactly when the
0-based attempt index exceeds `2 * len(PERSONAS) = 16`: with the
default cap of 50 (29 attempts) and a generator empty only at attempt
`k`, all 29 attempts run when `k ≤ 16`, while the loop stops right
after attempt `k` (making `k + 1` calls) when `17 ≤ k < 29`; no
counter is kept and nothing is "reset".  In
`Create_QA_from_jsonl_alt_fixed.py`'s `process_single_entry`, empty
results never abort early: the loop always performs exactly
`max_q_per_entry` generator calls. -/
theorem c3_empty_abort :
    (∀ k : Nat, k < 17 →
      (processUrlContent "u"
        (fun n => if n = k then [] else [⟨"q", "a", "u", "per"⟩]) 50 []).calls = 29) ∧
    (∀ k : Nat, k < 29 → 17 ≤ k →
      (processUrlContent "u"
        (fun n => if n = k then [] else [⟨"q", "a", "u", "per"⟩]) 50 []).calls = k + 1) ∧
    (∀ (genO : Nat → Option FullQA) (writeOk : Nat → Bool) (n attempt : Nat)
      (st : SEState), (seLoop genO writeOk n attempt st).calls = st.calls + n) :=
  ⟨by decide, by decide, fun genO writeOk n attempt st => seLoop_calls genO writeOk n attempt st⟩

/-- Claim C3, witness: an empty result at attempt 3 does not abort
(29 calls); an empty result at attempt 20 aborts right there (21
calls); the single-entry loop of the alt script always runs all its
attempts. -/
theorem c3_empty_abort_witness :
    ((processUrlContent "u"
        (fun n => if n = 3 then [] else [⟨"q", "a", "u", "per"⟩]) 50 []).calls = 29) ∧
    ((processUrlContent "u"
        (fun n => if n = 20 then [] else [⟨"q", "a", "u", "per"⟩]) 50 []).calls = 21) ∧
    ((seLoop (fun _ => none) (fun _ => true) 4 0 ⟨[], [], [], 0, 0⟩).calls = 0 + 4) :=
  ⟨c3_empty_abort.1 3 (by decide), c3_empty_abort.2.1 20 (by decide) (by decide),
   c3_empty_abort.2.2 (fun _ => none) (fun _ => true) 4 0 ⟨[], [], [], 0, 0⟩⟩

/-! ## Claim C9 -/

lemma improveCycle_spec (src : String) (impO : Nat → Option BasicQA)
    (revO : Nat → Option QAEvaluationM) :
    ∀ (remaining iteration : Nat) (st : ImpState),
      ∃ tail : List Int,
        (improveCycle src impO revO remaining iteration st).accepted =
          st.accepted ++ tail ∧
        (improveCycle src impO revO remaining iteration st).improveCalls ≤
          st.improveCalls + remaining ∧
        List.Chain' (· < ·) (st.eval.overall_score :: tail) ∧
        (∀ x ∈ tail.dropLast, x < 80) ∧
        (tail = [] →
          (improveCycle src impO revO remaining iteration st).qa = st.qa) := by
  intro remaining
  induction remaining with
  | zero =>
    intro iteration st
    exact ⟨[], (List.append_nil _).symm, Nat.le_refl _, List.chain'_singleton _,
      by simp, fun _ => rfl⟩
  | succ m ih =>
    intro iteration st
    rcases himp : impO iteration with _ | raw
    · refine ⟨[], ?_, ?_, List.chain'_singleton _, by simp, ?_⟩
      · simp [improveCycle, himp]
      · simp only [improveCycle, himp]
        omega
      · intro _
        simp [improveCycle, himp]
    · rcases hrev : revO iteration with _ | re
      · refine ⟨[], ?_, ?_, List.chain'_singleton _, by simp, ?_⟩
        · simp [improveCycle, himp, hrev]
        · simp only [improveCycle, himp, hrev]
          omega
        · intro _
          simp [improveCycle, himp, hrev]
      · by_cases hlt : st.eval.overall_score < re.overall_score
        · by_cases h80 : (80 : Int) ≤ re.overall_score
          · refine ⟨[re.overall_score], ?_, ?_,
              List.chain'_pair.mpr hlt, by simp, ?_⟩
            · simp [improveCycle, himp, hrev, if_pos hlt, if_pos h80]
            · simp only [improveCycle, himp, hrev, if_pos hlt, if_pos h80]
              omega
            · intro hcontra
              simp at hcontra
          · obtain ⟨tail', hA, hB, hC, hD, hE⟩ :=
              ih (iteration + 1)
                ⟨fixSourceUrl src raw, re, some re.overall_score,
                  some re.overall_rating, iteration + 1, st.improveCalls + 1,
                  st.accepted ++ [re.overall_score]⟩
            refine ⟨re.overall_score :: tail', ?_, ?_,
              List.chain'_cons.mpr ⟨hlt, hC⟩, ?_, ?_⟩
            · simp only [improveCycle, himp, hrev, if_pos hlt, if_neg h80]
              rw [hA]
              simp
            · simp only [improveCycle, himp, hrev, if_pos hlt, if_neg h80]
              dsimp only at hB
              omega
            · intro x hx
              cases tail' with
              | nil => simp at hx
              | cons b l =>
                rw [List.dropLast_cons₂] at hx
                rcases List.mem_cons.mp hx with hx2 | hx2
                · rw [hx2]
                  exact Int.not_le.mp h80
                · exact hD x hx2
            · intro hcontra
              simp at hcontra
        · refine ⟨[], ?_, ?_, List.chain'_singleton _, by simp, ?_⟩
          · simp [improveCycle, himp, hrev, if_neg hlt]
          · simp only [improveCycle, himp, hrev, if_neg hlt]
            omega
          · intro _
            simp [improveCycle, himp, hrev, if_neg hlt]

/-- Claim C9: in `generate_complete_qa_with_evaluation`'s improve
cycle, improvement calls are bounded by `max_improvement_iterations`
(and no call is made when the initial evaluation does not mark the
pair as needing improvement with priority high or medium); every
accepted replacement's re-evaluation score is strictly greater than
the score it replaces (the scores form a strictly increasing chain
starting at the initial evaluation's score); every accepted score
except possibly the final one is below 80, i.e. the cycle stops as
soon as a re-evaluation reaches the quality floor of 80; and if
nothing was accepted the original pair is kept. -/
theorem c9_evaluate_improve :
    ∀ (src : String) (eval0 : Option QAEvaluationM) (impO : Nat → Option BasicQA)
      (revO : Nat → Option QAEvaluationM) (maxIter : Nat) (basicQa : BasicQA),
      ((evalImprove src eval0 impO revO maxIter basicQa).improveCalls ≤ maxIter) ∧
      (∀ e, eval0 = some e →
        ¬(e.needs_improvement = true ∧
          (e.improvement_priority = "high" ∨ e.improvement_priority = "medium")) →
        (evalImprove src eval0 impO revO maxIter basicQa).improveCalls = 0) ∧
      (∀ e, eval0 = some e →
        List.Chain' (· < ·)
          (e.overall_score ::
            (evalImprove src eval0 impO revO maxIter basicQa).accepted)) ∧
      (∀ x ∈ (evalImprove src eval0 impO revO maxIter basicQa).accepted.dropLast,
        x < 80) ∧
      ((evalImprove src eval0 impO revO maxIter basicQa).accepted = [] →
        (evalImprove src eval0 impO revO maxIter basicQa).qa = basicQa) := by
  intro src eval0 impO revO maxIter basicQa
  cases eval0 with
  | none =>
    refine ⟨Nat.zero_le _, ?_, ?_, ?_, fun _ => rfl⟩
    · intro e he; cases he
    · intro e he; cases he
    · intro x hx; simp [evalImprove] at hx
  | some e =>
    by_cases hcond : (e.needs_improvement = true ∧
        (e.improvement_priority = "high" ∨ e.improvement_priority = "medium"))
    · obtain ⟨tail, hA, hB, hC, hD, hE⟩ :=
        improveCycle_spec src impO revO maxIter 0
          ⟨basicQa, e, some e.overall_score, some e.overall_rating, 0, 0, []⟩
      rw [List.nil_append] at hA
      refine ⟨?_, ?_, ?_, ?_, ?_⟩ <;>
        simp only [evalImprove, if_pos hcond]
      · dsimp only at hB
        omega
      · intro e' he' hne
        injection he' with he''
        subst he''
        exact absurd hcond hne
      · intro e' he'
        injection he' with he''
        subst he''
        rw [hA]
        exact hC
      · intro x hx
        rw [hA] at hx
        exact hD x hx
      · intro hacc
        rw [hA] at hacc
        exact hE hacc
    · refine ⟨?_, ?_, ?_, ?_, ?_⟩
      · simp only [evalImprove, if_neg hcond]
        exact Nat.zero_le _
      · intro e' he' _
        simp [evalImprove, if_neg hcond]
      · intro e' he'
        injection he' with he''
        subst he''
        simp only [evalImprove, if_neg hcond]
        exact List.chain'_singleton _
      · intro x hx
        simp [evalImprove, if_neg hcond] at hx
      · intro _
        simp [evalImprove, if_neg hcond]

/-- Claim C9, witness: a cycle that accepts score 60 then score 90 and
stops (two calls, within the bound; both accepted scores strictly
improve; the non-final accepted score is below 80), and a pair whose
initial evaluation has priority `low`, which triggers no improvement
call and is kept unchanged. -/
theorem c9_evaluate_improve_witness :
    ((evalImprove "u" (some ⟨50, "fair", 50, 50, 50, [], [], [], true, "high"⟩)
        (fun _ => some ⟨"qi", "ai", "u"⟩)
        (fun i => if i = 0
          then some ⟨60, "fair", 60, 60, 60, [], [], [], true, "medium"⟩
          else some ⟨90, "excellent", 90, 90, 90, [], [], [], false, "low"⟩)
        2 ⟨"q0", "a0", "u"⟩).improveCalls ≤ 2) ∧
    ((evalImprove "u" (some ⟨90, "excellent", 90, 90, 90, [], [], [], false, "low"⟩)
        (fun _ => some ⟨"qi", "ai", "u"⟩) (fun _ => none) 2
        ⟨"q0", "a0", "u"⟩).improveCalls = 0) ∧
    (List.Chain' (· < ·) ((50 : Int) ::
      (evalImprove "u" (some ⟨50, "fair", 50, 50, 50, [], [], [], true, "high"⟩)
        (fun _ => some ⟨"qi", "ai", "u"⟩)
        (fun i => if i = 0
          then some ⟨60, "fair", 60, 60, 60, [], [], [], true, "medium"⟩
          else some ⟨90, "excellent", 90, 90, 90, [], [], [], false, "low"⟩)
        2 ⟨"q0", "a0", "u"⟩).accepted)) ∧
    ((60 : Int) < 80) ∧
    ((evalImprove "u" (some ⟨90, "excellent", 90, 90, 90, [], [], [], false, "low"⟩)
        (fun _ => some ⟨"qi", "ai", "u"⟩) (fun _ => none) 2
        ⟨"q0", "a0", "u"⟩).qa = ⟨"q0", "a0", "u"⟩) :=
  ⟨(c9_evaluate_improve "u" (some ⟨50, "fair", 50, 50, 50, [], [], [], true, "high"⟩)
      (fun _ => some ⟨"qi", "ai", "u"⟩)
      (fun i => if i = 0
        then some ⟨60, "fair", 60, 60, 60, [], [], [], true, "medium"⟩
        else some ⟨90, "excellent", 90, 90, 90, [], [], [], false, "low"⟩)
      2 ⟨"q0", "a0", "u"⟩).1,
   (c9_evaluate_improve "u" (some ⟨90, "excellent", 90, 90, 90, [], [], [], false, "low"⟩)
      (fun _ => some ⟨"qi", "ai", "u"⟩) (fun _ => none) 2 ⟨"q0", "a0", "u"⟩).2.1
      ⟨90, "excellent", 90, 90, 90, [], [], [], false, "low"⟩ rfl (by decide),
   (c9_evaluate_improve "u" (some ⟨50, "fair", 50, 50, 50, [], [], [], true, "high"⟩)
      (fun _ => some ⟨"qi", "ai", "u"⟩)
      (fun i => if i = 0
        then some ⟨60, "fair", 60, 60, 60, [], [], [], true, "medium"⟩
        else some ⟨90, "excellent", 90, 90, 90, [], [], [], false, "low"⟩)
      2 ⟨"q0", "a0", "u"⟩).2.2.1
      ⟨50, "fair", 50, 50, 50, [], [], [], true, "high"⟩ rfl,
   (c9_evaluate_improve "u" (some ⟨50, "fair", 50, 50, 50, [], [], [], true, "high"⟩)
      (fun _ => some ⟨"qi", "ai", "u"⟩)
      (fun i => if i = 0
        then some ⟨60, "fair", 60, 60, 60, [], [], [], true, "medium"⟩
        else some ⟨90, "excellent", 90, 90, 90, [], [], [], false, "low"⟩)
      2 ⟨"q0", "a0", "u"⟩).2.2.2.1 60 (by decide),
   (c9_evaluate_improve "u" (some ⟨90, "excellent", 90, 90, 90, [], [], [], false, "low"⟩)
      (fun _ => some ⟨"qi", "ai", "u"⟩) (fun _ => none) 2
      ⟨"q0", "a0", "u"⟩).2.2.2.2 (by decide)⟩

/-! ## Claim C10 -/

lemma seStep_set_mono (genO : Nat → Option FullQA) (writeOk : Nat → Bool)
    (attempt : Nat) (st : SEState) :
    ∀ t ∈ st.globalSet, t ∈ (seStep genO writeOk attempt st).globalSet := by
  intro t ht
  rcases hg : genO attempt with _ | qa <;> simp only [seStep, hg]
  · exact ht
  · split
    · exact ht
    · split
      · exact List.mem_cons_of_mem _ ht
      · exact List.mem_cons_of_mem _ ht

lemma seLoop_set_mono (genO : Nat → Option FullQA) (writeOk : Nat → Bool) :
    ∀ (n attempt : Nat) (st : SEState) (t : String × String),
      t ∈ st.globalSet → t ∈ (seLoop genO writeOk n attempt st).globalSet := by
  intro n
  induction n with
  | zero => intro attempt st t ht; exact ht
  | succ m ih =>
    intro attempt st t ht
    simp only [seLoop]
    exact ih (attempt + 1) _ t (seStep_set_mono genO writeOk attempt st t ht)

lemma seStep_guard (genO : Nat → Option FullQA) (writeOk : Nat → Bool)
    (attempt : Nat) (st : SEState) :
    ∀ p ∈ (seStep genO writeOk attempt st).fileNew,
      p ∈ st.fileNew ∨ (p.question, p.answer) ∉ st.globalSet := by
  intro p hp
  rcases hg : genO attempt with _ | qa <;> simp only [seStep, hg] at hp
  · exact Or.inl hp
  · split at hp
    · exact Or.inl hp
    next hnot =>
      split at hp
      · rcases List.mem_append.mp hp with hp' | hp'
        · exact Or.inl hp'
        · have hpq : p = qa := by simpa using hp'
          rw [hpq]
          exact Or.inr hnot
      · exact Or.inl hp

lemma seLoop_guard (genO : Nat → Option FullQA) (writeOk : Nat → Bool) :
    ∀ (n attempt : Nat) (st : SEState) (t : String × String),
      t ∈ st.globalSet →
      ∀ p ∈ (seLoop genO writeOk n attempt st).fileNew,
        p ∈ st.fileNew ∨ (p.question, p.answer) ≠ t := by
  intro n
  induction n with
  | zero => intro attempt st t _ p hp; exact Or.inl hp
  | succ m ih =>
    intro attempt st t ht p hp
    simp only [seLoop] at hp
    rcases ih (attempt + 1) (seStep genO writeOk attempt st) t
      (seStep_set_mono genO writeOk attempt st t ht) p hp with h' | h'
    · rcases seStep_guard genO writeOk attempt st p h' with h2 | h2
      · exact Or.inl h2
      · exact Or.inr fun hkey => h2 (hkey ▸ ht)
    · exact Or.inr h'

lemma seStep_failed (genO : Nat → Option FullQA) (writeOk : Nat → Bool)
    {attempt : Nat} {st : SEState} {qa : FullQA}
    (hg : genO attempt = some qa) (hw : writeOk attempt = false)
    (hnot : (qa.question, qa.answer) ∉ st.globalSet) :
    (seStep genO writeOk attempt st).fileNew = st.fileNew ∧
    (qa.question, qa.answer) ∈ (seStep genO writeOk attempt st).globalSet := by
  simp only [seStep, hg, hw]
  rw [if_neg hnot]
  simp

/-- Claim C10: in `process_single_entry` a novel candidate's
`(question, answer)` tuple is inserted into the in-memory dedup ledger
before the file append is attempted; if the write fails, the file is
unchanged for that attempt while the tuple stays in the ledger, and
for the rest of the run no pair with that tuple is ever appended to
the file. -/
theorem c10_ledger_insert_before_write :
    ∀ (genO : Nat → Option FullQA) (writeOk : Nat → Bool) (n attempt : Nat)
      (st : SEState) (qa : FullQA),
      genO attempt = some qa → writeOk attempt = false →
      (qa.question, qa.answer) ∉ st.globalSet →
      ((seStep genO writeOk attempt st).fileNew = st.fileNew) ∧
      ((qa.question, qa.answer) ∈
        (seLoop genO writeOk (n + 1) attempt st).globalSet) ∧
      (∀ p ∈ (seLoop genO writeOk (n + 1) attempt st).fileNew,
        p ∈ st.fileNew ∨ (p.question, p.answer) ≠ (qa.question, qa.answer)) := by
  intro genO writeOk n attempt st qa hg hw hnot
  obtain ⟨hfile, hset⟩ := seStep_failed genO writeOk hg hw hnot
  refine ⟨hfile, ?_, ?_⟩
  · simp only [seLoop]
    exact seLoop_set_mono genO writeOk n (attempt + 1) _ _ hset
  · intro p hp
    simp only [seLoop] at hp
    rcases seLoop_guard genO writeOk n (attempt + 1)
      (seStep genO writeOk attempt st) (qa.question, qa.answer) hset p hp with h' | h'
    · exact Or.inl (hfile ▸ h')
    · exact Or.inr h'

/-- Claim C10, witness: a generator that always proposes the same pair
against a write that always fails — the pair is never in the file,
but its tuple is in the ledger. -/
theorem c10_ledger_insert_before_write_witness :
    ((seStep (fun _ => some ⟨"q0", "a0", "u", "per", "cat", ["k"], none, none, none⟩)
        (fun _ => false) 0 ⟨[], [], [], 0, 0⟩).fileNew = []) ∧
    (("q0", "a0") ∈ (seLoop
        (fun _ => some ⟨"q0", "a0", "u", "per", "cat", ["k"], none, none, none⟩)
        (fun _ => false) 3 0 ⟨[], [], [], 0, 0⟩).globalSet) :=
  ⟨(c10_ledger_insert_before_write
      (fun _ => some ⟨"q0", "a0", "u", "per", "cat", ["k"], none, none, none⟩)
      (fun _ => false) 2 0 ⟨[], [], [], 0, 0⟩
      ⟨"q0", "a0", "u", "per", "cat", ["k"], none, none, none⟩ rfl rfl (by decide)).1,
   (c10_ledger_insert_before_write
      (fun _ => some ⟨"q0", "a0", "u", "per", "cat", ["k"], none, none, none⟩)
      (fun _ => false) 2 0 ⟨[], [], [], 0, 0⟩
      ⟨"q0", "a0", "u", "per", "cat", ["k"], none, none, none⟩ rfl rfl (by decide)).2.1⟩

end CreateQA
